import Mathlib

/-!
Verification of `pytorch_compute_capabilities_pip.py`.

The Python source is shallowly embedded: strings are Lean `String`s
manipulated through their underlying `List Char`, Python's builtin string
operations (`split`, `strip`, `lower`, substring containment, `int`,
`str.join`, list `sort`) are modelled by executable Lean functions below,
and the effectful parts of the pipeline (HTTP fetch, subprocess, download)
are abstracted as explicit `Except`-valued inputs.
-/

namespace PipCaps

/-! ## Generic helpers for Python string and list builtins -/

/-- Lexicographic strict comparison of lists, parameterised by a strict
comparison on elements.  Mirrors Python's comparison of lists/strings:
a proper prefix is smaller. -/
def lexLt (lt : α → α → Bool) : List α → List α → Bool
  | [], [] => false
  | [], _ :: _ => true
  | _ :: _, [] => false
  | a :: as, b :: bs => if lt a b then true else if lt b a then false else lexLt lt as bs

/-- Boolean test that the first list is a prefix of the second. -/
def isPre [DecidableEq α] : List α → List α → Bool
  | [], _ => true
  | _ :: _, [] => false
  | a :: as, b :: bs => decide (a = b) && isPre as bs

/-- Boolean substring containment on lists; mirrors Python's `needle in hay`
for strings. -/
def containsSub [DecidableEq α] (needle : List α) : List α → Bool
  | [] => isPre needle []
  | c :: rest => isPre needle (c :: rest) || containsSub needle rest

/-- Python `needle in hay` on strings. -/
def pyContains (needle hay : String) : Bool :=
  containsSub needle.data hay.data

/-- Python `s.startswith(p)`. -/
def pyStartsWith (p s : String) : Bool :=
  isPre p.data s.data

/-- Split a list of characters on a single separator character, keeping empty
pieces; mirrors Python's `s.split(sep)` for a one-character `sep`
(in particular the result is never empty and splitting the empty string
yields `[[]]`). -/
def splitOnCharL (sep : Char) : List Char → List (List Char)
  | [] => [[]]
  | c :: rest =>
    if c = sep then [] :: splitOnCharL sep rest
    else
      match splitOnCharL sep rest with
      | t :: ts => (c :: t) :: ts
      | [] => [[c]]

/-- Python `s.split(sep)` for a one-character separator, on `String`. -/
def pySplit (sep : Char) (s : String) : List String :=
  (splitOnCharL sep s.data).map String.mk

/-- ASCII whitespace as recognised by Python's `str.strip()`. -/
def pyIsSpace (c : Char) : Bool :=
  c = ' ' || c = '\t' || c = '\n' || c = '\r' || c = '\x0b' || c = '\x0c'

/-- Strip leading and trailing whitespace from a character list;
mirrors Python's `str.strip()`. -/
def stripData (l : List Char) : List Char :=
  ((((l.dropWhile pyIsSpace).reverse).dropWhile pyIsSpace)).reverse

/-- Python `s.strip()` on `String`. -/
def pyStrip (s : String) : String :=
  ⟨stripData s.data⟩

/-- Python `s.lower()` (ASCII letters only, which is all the source feeds it). -/
def pyLower (s : String) : String :=
  ⟨s.data.map Char.toLower⟩

/-- Join a list of character lists with a separator; mirrors Python's
`sep.join(pieces)`. -/
def joinWith (sep : List Char) : List (List Char) → List Char
  | [] => []
  | [x] => x
  | x :: y :: rest => x ++ sep ++ joinWith sep (y :: rest)

/-- Python `sep.join(strings)` on `String`. -/
def pyJoin (sep : String) (xs : List String) : String :=
  ⟨joinWith sep.data (xs.map String.data)⟩

/-- Magnitude part of Python's `int(str)`: at least one ASCII digit, with
single underscores allowed between digits. -/
def pyIntDigits (acc : Nat) : List Char → Option Nat
  | [] => some acc
  | '_' :: rest =>
    match rest with
    | d :: rest' => if d.isDigit then pyIntDigits (acc * 10 + (d.toNat - 48)) rest' else none
    | [] => none
  | d :: rest => if d.isDigit then pyIntDigits (acc * 10 + (d.toNat - 48)) rest else none

/-- Magnitude of `int(str)` after the optional sign. -/
def pyIntMag : List Char → Option Nat
  | d :: rest => if d.isDigit then pyIntDigits (d.toNat - 48) rest else none
  | [] => none

/-- Python's `int(str)` on ASCII input: surrounding whitespace is stripped,
an optional sign is allowed, then a nonempty digit string (with single
underscores between digits); every other input raises `ValueError`,
modelled as `none`. -/
def pyInt (s : String) : Option Int :=
  match stripData s.data with
  | '+' :: rest => (pyIntMag rest).map Int.ofNat
  | '-' :: rest => (pyIntMag rest).map fun n => -(Int.ofNat n : Int)
  | rest => (pyIntMag rest).map Int.ofNat

/-- Stable sort by a boolean `le`, mirroring Python's stable `list.sort` /
`sorted`.  Implemented by Mathlib's (structurally recursive, hence
kernel-computable) insertion sort, which is stable like CPython's sort. -/
def pySort (le : α → α → Bool) (l : List α) : List α :=
  l.insertionSort fun a b => le a b = true

/-- Strict comparison on characters by code point, as in Python. -/
def charLtB (a b : Char) : Bool :=
  decide (a.toNat < b.toNat)

/-- Strict comparison on strings, as in Python: lexicographic by code point. -/
def strLtB (a b : String) : Bool :=
  lexLt charLtB a.data b.data

/-- Ascending order on strings used for Python's `sorted` on strings. -/
def strLeB (a b : String) : Bool :=
  !(strLtB b a)

/-- Python's `sorted(set(xs))` for strings: the ascending list of the distinct
elements of `xs`. -/
def pySortedSet (xs : List String) : List String :=
  pySort strLeB xs.dedup

/-! ## `extract_python_version_from_filename` (source lines 38-58) -/

/-- Embeds `extract_python_version_from_filename`: split the filename on
`"-"`; if there are at least three parts and the third starts with `"cp"`
followed by at least two characters, return the first of those characters,
a dot, and the rest; otherwise return `"unknown"`. -/
def extract_python_version_from_filename (filename : String) : String :=
  match pySplit '-' filename with
  | _ :: _ :: python_tag :: _ =>
    if isPre ['c', 'p'] python_tag.data then
      match python_tag.data.drop 2 with
      | major :: m :: rest => ⟨major :: '.' :: m :: rest⟩
      | _ => "unknown"
    else "unknown"
  | _ => "unknown"

example : extract_python_version_from_filename
    "torch-2.8.0-cp313-cp313-manylinux_2_28_x86_64.whl" = "3.13" := by decide

example : extract_python_version_from_filename "torch-2.8.0.whl" = "unknown" := by decide

example : extract_python_version_from_filename "a-b-cp39" = "3.9" := by decide

/-! ## Order lemmas for the comparison functions -/

/-- Strict comparison on integers, as in Python. -/
def intLtB (a b : Int) : Bool :=
  decide (a < b)

theorem char_toNat_inj {a b : Char} (h : a.toNat = b.toNat) : a = b := by
  refine Char.eq_of_val_eq (UInt32.eq_of_toBitVec_eq ?_)
  simp only [Char.toNat, UInt32.toNat] at h
  exact BitVec.eq_of_toNat_eq h

theorem charLtB_asymm {a b : Char} (h : charLtB a b = true) : charLtB b a = false := by
  simp only [charLtB, decide_eq_true_eq] at h
  simp only [charLtB, decide_eq_false_iff_not]
  omega

theorem charLtB_trans {a b c : Char} (h₁ : charLtB a b = true) (h₂ : charLtB b c = true) :
    charLtB a c = true := by
  simp only [charLtB, decide_eq_true_eq] at h₁ h₂ ⊢
  omega

theorem charLtB_conn {a b : Char} (h₁ : charLtB a b = false) (h₂ : charLtB b a = false) :
    a = b := by
  simp only [charLtB, decide_eq_false_iff_not] at h₁ h₂
  exact char_toNat_inj (by omega)

theorem intLtB_asymm {a b : Int} (h : intLtB a b = true) : intLtB b a = false := by
  simp only [intLtB, decide_eq_true_eq] at h
  simp only [intLtB, decide_eq_false_iff_not]
  omega

theorem intLtB_trans {a b c : Int} (h₁ : intLtB a b = true) (h₂ : intLtB b c = true) :
    intLtB a c = true := by
  simp only [intLtB, decide_eq_true_eq] at h₁ h₂ ⊢
  omega

theorem intLtB_conn {a b : Int} (h₁ : intLtB a b = false) (h₂ : intLtB b a = false) :
    a = b := by
  simp only [intLtB, decide_eq_false_iff_not] at h₁ h₂
  omega

theorem lexLt_asymm (r : α → α → Bool)
    (ha : ∀ a b : α, r a b = true → r b a = false) :
    ∀ l₁ l₂ : List α, lexLt r l₁ l₂ = true → lexLt r l₂ l₁ = false
  | [], [], h => by simp [lexLt] at h
  | [], _ :: _, _ => by simp [lexLt]
  | _ :: _, [], h => by simp [lexLt] at h
  | a :: as, b :: bs, h => by
    simp only [lexLt] at h ⊢
    cases hab : r a b with
    | true => simp [ha a b hab]
    | false =>
      rw [hab] at h
      simp only [Bool.false_eq_true, if_false] at h
      cases hba : r b a with
      | true => rw [hba] at h; simp at h
      | false =>
        rw [hba] at h
        simp only [Bool.false_eq_true, if_false] at h
        simp [hab, hba, lexLt_asymm r ha as bs h]

theorem lexLt_conn (r : α → α → Bool)
    (hc : ∀ a b : α, r a b = false → r b a = false → a = b) :
    ∀ l₁ l₂ : List α, lexLt r l₁ l₂ = false → lexLt r l₂ l₁ = false → l₁ = l₂
  | [], [], _, _ => rfl
  | [], _ :: _, h, _ => by simp [lexLt] at h
  | _ :: _, [], _, h => by simp [lexLt] at h
  | a :: as, b :: bs, h₁, h₂ => by
    simp only [lexLt] at h₁ h₂
    cases hab : r a b with
    | true => rw [hab] at h₁; simp at h₁
    | false =>
      cases hba : r b a with
      | true => rw [hba] at h₂; simp at h₂
      | false =>
        rw [hab, hba] at h₁ h₂
        simp only [Bool.false_eq_true, if_false] at h₁ h₂
        rw [hc a b hab hba, lexLt_conn r hc as bs h₁ h₂]

theorem lexLt_trans (r : α → α → Bool)
    (hc : ∀ a b : α, r a b = false → r b a = false → a = b)
    (ht : ∀ a b c : α, r a b = true → r b c = true → r a c = true) :
    ∀ l₁ l₂ l₃ : List α,
      lexLt r l₁ l₂ = true → lexLt r l₂ l₃ = true → lexLt r l₁ l₃ = true
  | [], _ :: _, _ :: _, _, _ => by simp [lexLt]
  | [], _ :: _, [], _, h₂ => by simp [lexLt] at h₂
  | [], [], _, h₁, _ => by simp [lexLt] at h₁
  | _ :: _, [], _, h₁, _ => by simp [lexLt] at h₁
  | _ :: _, _ :: _, [], _, h₂ => by simp [lexLt] at h₂
  | a :: as, b :: bs, c :: cs, h₁, h₂ => by
    simp only [lexLt] at h₁ h₂ ⊢
    cases hab : r a b with
    | true =>
      cases hbc : r b c with
      | true => simp [ht a b c hab hbc]
      | false =>
        cases hcb : r c b with
        | true => rw [hbc, hcb] at h₂; simp at h₂
        | false =>
          have hbceq : b = c := hc b c hbc hcb
          subst hbceq
          simp [hab]
    | false =>
      cases hba : r b a with
      | true => rw [hab, hba] at h₁; simp at h₁
      | false =>
        have habeq : a = b := hc a b hab hba
        subst habeq
        rw [hab] at h₁
        simp only [Bool.false_eq_true, if_false, if_neg] at h₁
        cases hac : r a c with
        | true => simp [hac]
        | false =>
          cases hca : r c a with
          | true => rw [hac, hca] at h₂; simp at h₂
          | false =>
            simp only [hac, hca, Bool.false_eq_true, if_false] at h₂ ⊢
            exact lexLt_trans r hc ht as bs cs h₁ h₂

/-! ## Properties of `pySort` -/

theorem pySort_perm (le : α → α → Bool) (l : List α) : List.Perm (pySort le l) l :=
  List.perm_insertionSort _ l

theorem pySort_mem {le : α → α → Bool} {l : List α} {a : α} :
    a ∈ pySort le l ↔ a ∈ l :=
  (pySort_perm le l).mem_iff

theorem pySort_pairwise (le : α → α → Bool)
    (ht : ∀ a b c, le a b = true → le b c = true → le a c = true)
    (hto : ∀ a b, le a b = true ∨ le b a = true) (l : List α) :
    (pySort le l).Pairwise fun a b => le a b = true := by
  haveI : IsTotal α fun a b => le a b = true := ⟨hto⟩
  haveI : IsTrans α fun a b => le a b = true := ⟨ht⟩
  exact List.sorted_insertionSort _ l

/-- An ascending `le` derived by negating a strict `lt` satisfying asymmetry
is total. -/
theorem negLt_total (r : α → α → Bool)
    (ha : ∀ a b : α, r a b = true → r b a = false) (a b : α) :
    (!(r b a)) = true ∨ (!(r a b)) = true := by
  cases h : r b a with
  | true => right; simp [ha b a h]
  | false => left; simp [h]

/-- An ascending `le` derived by negating a strict `lt` with transitivity and
connectedness is transitive. -/
theorem negLt_trans (r : α → α → Bool)
    (hc : ∀ a b : α, r a b = false → r b a = false → a = b)
    (ht : ∀ a b c : α, r a b = true → r b c = true → r a c = true)
    {a b c : α} (h₁ : (!(r b a)) = true) (h₂ : (!(r c b)) = true) :
    (!(r c a)) = true := by
  simp only [Bool.not_eq_true'] at h₁ h₂ ⊢
  cases hca : r c a with
  | false => rfl
  | true =>
    cases hab : r a b with
    | true =>
      have := ht c a b hca hab
      rw [this] at h₂
      exact absurd h₂ (by simp)
    | false =>
      have : a = b := hc a b hab h₁
      subst this
      rw [hca] at h₂
      exact absurd h₂ (by simp)

theorem strLtB_asymm {a b : String} (h : strLtB a b = true) : strLtB b a = false :=
  lexLt_asymm charLtB (fun _ _ => charLtB_asymm) a.data b.data h

theorem strLtB_conn {a b : String} (h₁ : strLtB a b = false) (h₂ : strLtB b a = false) :
    a = b := by
  cases a with
  | mk da =>
    cases b with
    | mk db =>
      have := lexLt_conn charLtB (fun _ _ => charLtB_conn) da db h₁ h₂
      rw [this]

theorem strLtB_trans {a b c : String} (h₁ : strLtB a b = true) (h₂ : strLtB b c = true) :
    strLtB a c = true :=
  lexLt_trans charLtB (fun _ _ => charLtB_conn) (fun _ _ _ => charLtB_trans)
    a.data b.data c.data h₁ h₂

theorem strLeB_total (a b : String) : strLeB a b = true ∨ strLeB b a = true :=
  negLt_total (fun x y : String => strLtB x y) (fun _ _ => strLtB_asymm) a b

theorem strLeB_trans {a b c : String} (h₁ : strLeB a b = true) (h₂ : strLeB b c = true) :
    strLeB a c = true :=
  negLt_trans (fun x y : String => strLtB x y) (fun _ _ => strLtB_conn)
    (fun _ _ _ => strLtB_trans) h₁ h₂

/-! ## Properties of `pySortedSet` -/

theorem pySortedSet_mem {xs : List String} {a : String} :
    a ∈ pySortedSet xs ↔ a ∈ xs := by
  rw [pySortedSet, pySort_mem, List.mem_dedup]

theorem pySortedSet_nodup (xs : List String) : (pySortedSet xs).Nodup :=
  ((pySort_perm strLeB xs.dedup).nodup_iff).mpr (List.nodup_dedup xs)

theorem strLtB_of_le_ne {a b : String} (h₁ : strLeB a b = true) (h₂ : a ≠ b) :
    strLtB a b = true := by
  simp only [strLeB, Bool.not_eq_true'] at h₁
  cases h : strLtB a b with
  | true => rfl
  | false => exact absurd (strLtB_conn h h₁) h₂

/-- The result of `sorted(set(xs))` is strictly ascending. -/
theorem pySortedSet_pairwise_lt (xs : List String) :
    (pySortedSet xs).Pairwise fun a b => strLtB a b = true := by
  have hle := pySort_pairwise strLeB (fun _ _ _ => strLeB_trans) strLeB_total xs.dedup
  have hne := pySortedSet_nodup xs
  rw [List.Nodup] at hne
  exact (hle.and hne).imp fun h => strLtB_of_le_ne h.1 h.2

/-! ## Data model

`WheelInfo` embeds the `wheel_info` dict built in `get_wheel_download_links`;
`FileInfo` embeds one entry of the PyPI metadata's `urls` list **as a partial
record**: a `none` field models a missing dictionary key, whose access raises
`KeyError` in Python.  `PackageInfo` embeds the fetched top-level JSON
document, with `urls := none` when the `"urls"` key is missing. -/

structure WheelInfo where
  filename : String
  url : String
  size : Int
  python_version : String
  platform_tag : String
deriving DecidableEq

structure FileInfo where
  packagetype : Option String
  filename : Option String
  url : Option String
  size : Option Int
deriving DecidableEq

structure PackageInfo where
  urls : Option (List FileInfo)
deriving DecidableEq

/-- Embeds the result dict of `analyze_all_wheels` (source lines 343-349, 359-365). -/
structure AnalysisResult where
  wheel_info : WheelInfo
  cuda_architectures : List String
  package_version : String
deriving DecidableEq

/-! ## `get_wheel_download_links` (source lines 61-105) -/

/-- Embeds the `for file_info in package_info["urls"]` loop of
`get_wheel_download_links`: keep entries whose `packagetype` is
`"bdist_wheel"` and whose filename contains `"manylinux_2_28_x86_64"`,
building the `wheel_info` record for each.  `Except.error ()` models a
`KeyError` raised by an access to a missing key (caught by the caller). -/
def collectWheels : List FileInfo → Except Unit (List WheelInfo)
  | [] => Except.ok []
  | file_info :: rest =>
    match file_info.packagetype with
    | none => Except.error ()
    | some pt =>
      if pt = "bdist_wheel" then
        match file_info.filename with
        | none => Except.error ()
        | some fn =>
          if pyContains "manylinux_2_28_x86_64" fn then
            match file_info.url, file_info.size with
            | some u, some sz =>
              (collectWheels rest).map fun ws =>
                { filename := fn, url := u, size := sz,
                  python_version := extract_python_version_from_filename fn,
                  platform_tag := "manylinux_2_28_x86_64" : WheelInfo } :: ws
            | _, _ => Except.error ()
          else collectWheels rest
      else collectWheels rest

/-- Ascending comparison used by `wheels.sort(key=lambda x: x["python_version"])`. -/
def wheelLeB (a b : WheelInfo) : Bool :=
  strLeB a.python_version b.python_version

/-- Embeds `get_wheel_download_links`.  The HTTP fetch of
`get_pypi_package_info` is abstracted as the `Except`-valued input
(`Except.error ()` models a raised `requests` exception, which includes JSON
decoding errors).  Both a fetch error and a `KeyError` (missing `"urls"` key
or missing key inside a processed entry) are caught and produce `[]`,
mirroring the two `except` clauses of the source. -/
def get_wheel_download_links (fetched : Except Unit PackageInfo) : List WheelInfo :=
  match fetched with
  | Except.error _ => []
  | Except.ok package_info =>
    match package_info.urls with
    | none => []
    | some files =>
      match collectWheels files with
      | Except.error _ => []
      | Except.ok wheels => pySort wheelLeB wheels

/-! ## `get_all_pytorch_2x_versions` (source lines 406-438) -/

/-- Decorate each element with its sort key, failing if any key computation
fails; mirrors how Python's `list.sort(key=f)` computes every key up front
and propagates the first exception. -/
def decorate (f : α → Option β) (l : List α) : Option (List (β × α)) :=
  l.mapM fun a => (f a).map fun b => (b, a)

/-- Embeds the inner `version_key` of `get_all_pytorch_2x_versions`:
`[int(x) for x in v.split(".")]`, `none` when some component raises
`ValueError`. -/
def version_key (v : String) : Option (List Int) :=
  (pySplit '.' v).mapM pyInt

/-- Embeds the filter of `get_all_pytorch_2x_versions`: keep versions starting
with `"2."` that contain none of the markers `"rc"`, `"dev"`, `"a"`, `"b"`. -/
def keepsVersion (version : String) : Bool :=
  pyStartsWith "2." version &&
    !(["rc", "dev", "a", "b"].any fun marker => pyContains marker version)

/-- Descending comparison on key-decorated versions, as produced by
`sort(key=version_key, reverse=True)`. -/
def versionDescLe (p q : List Int × String) : Bool :=
  !(lexLt intLtB p.1 q.1)

/-- Embeds `get_all_pytorch_2x_versions`, abstracting the fetched
`package_info["releases"].keys()` as the input list.  The whole body runs
inside `try`/`except Exception`, so a `ValueError` from `int()` on any kept
version's component makes the function return `[]`. -/
def get_all_pytorch_2x_versions (all_versions : List String) : List String :=
  let pytorch_2x_versions := all_versions.filter keepsVersion
  match decorate version_key pytorch_2x_versions with
  | some keyed => (pySort versionDescLe keyed).map fun p => p.2
  | none => []

example : get_all_pytorch_2x_versions ["2.0.0", "2.1.0rc1", "2.1.0", "1.13.0"] =
    ["2.1.0", "2.0.0"] := by decide

example : get_all_pytorch_2x_versions ["2.0.post1"] = [] := by decide

/-! ## `get_cuda_architectures` (source lines 182-259) -/

/-- Embeds `get_cuda_architectures`.  The filesystem check for
`libtorch_cuda.so` is abstracted as `libtorch_exists`, and the `cuobjdump`
subprocess as `run_cuobjdump` (`Except.error ()` models a
`CalledProcessError` or any other exception, both caught and mapped to `[]`).
On captured stdout: lines containing `"arch"` (case-insensitively) are
stripped, deduplicated and sorted; if there are none, all lines containing
`"sm_"` (case-insensitively) are stripped and returned as-is; otherwise the
result is empty. -/
def get_cuda_architectures (libtorch_exists : Bool)
    (run_cuobjdump : Except Unit String) : List String :=
  if !libtorch_exists then []
  else
    match run_cuobjdump with
    | Except.error _ => []
    | Except.ok stdout =>
      let lines := pySplit '\n' stdout
      let arch_lines := (lines.filter fun line => pyContains "arch" (pyLower line)).map pyStrip
      if arch_lines ≠ [] then pySortedSet arch_lines
      else
        let sm_lines := (lines.filter fun line => pyContains "sm_" (pyLower line)).map pyStrip
        if sm_lines ≠ [] then sm_lines
        else []

example : get_cuda_architectures true (Except.ok "Arch = sm_80\nrandom noise") =
    ["Arch = sm_80"] := by decide

/-! ## `analyze_all_wheels` (source lines 298-367) -/

/-- Embeds `re.search(r"sm_\x5cd+[a-z]*", s)` tried at one position: the text
must start with `"sm_"` followed by at least one ASCII digit; the match is
the greedy run of digits then the greedy run of lowercase letters. -/
def smMatchAt (l : List Char) : Option (List Char) :=
  if isPre ['s', 'm', '_'] l then
    let rest := l.drop 3
    let ds := rest.takeWhile Char.isDigit
    if ds = [] then none
    else some ('s' :: 'm' :: '_' :: (ds ++ ((rest.dropWhile Char.isDigit).takeWhile Char.isLower)))
  else none

/-- Embeds `re.search(r"sm_\x5cd+[a-z]*", s)`: the leftmost match, or `none`. -/
def reSearchSm : List Char → Option (List Char)
  | [] => none
  | c :: rest =>
    match smMatchAt (c :: rest) with
    | some m => some m
    | none => reSearchSm rest

/-- Embeds the `clean_archs` loop of `analyze_all_wheels` (source lines
334-341): for each raw line containing `"sm_"` (case-sensitively here),
keep the regex match when there is one. -/
def cleanArchList (archs : List String) : List String :=
  archs.filterMap fun arch =>
    if pyContains "sm_" arch then (reSearchSm arch.data).map String.mk else none

/-- Embeds `analyze_all_wheels`.  The whole per-wheel `try` block (download,
extraction, `get_cuda_architectures`) is abstracted as `inspect`, whose
`Except.error ()` models any exception raised inside the `try`; the
`except` branch records the wheel with an empty architecture list and the
loop continues. -/
def analyze_all_wheels (inspect : WheelInfo → Except Unit (List String))
    (wheels : List WheelInfo) (package_version : String) : List AnalysisResult :=
  wheels.map fun wheel =>
    match inspect wheel with
    | Except.ok archs =>
      { wheel_info := wheel,
        cuda_architectures := pySortedSet (cleanArchList archs),
        package_version := package_version }
    | Except.error _ =>
      { wheel_info := wheel, cuda_architectures := [], package_version := package_version }

/-- Checks that a string is exactly one well-formed architecture token
`sm_` + digits + optional trailing lowercase letters (a full match of the
stricter regex `sm_\x5cd+[a-z]*`). -/
def isArchToken (s : String) : Bool :=
  isPre ['s', 'm', '_'] s.data &&
    (s.data.drop 3).takeWhile Char.isDigit ≠ [] &&
    ((s.data.drop 3).dropWhile Char.isDigit).all Char.isLower

example : cleanArchList ["Arch = sm_80", "code for sm_90a something", "sm_x", "noise"] =
    ["sm_80", "sm_90a"] := by decide

/-! ## Table rendering (source lines 370-403 and 454-500) -/

/-- Embeds the `arch_str` computation of the table generators: the
comma-joined architecture list, or `""` when it is empty. -/
def archStr (result : AnalysisResult) : String :=
  if result.cuda_architectures ≠ [] then pyJoin ", " result.cuda_architectures else ""

/-- Embeds the data-row rendering shared by `generate_pip_table` and
`generate_comprehensive_pip_table`: `f"| {filename} | {arch_str} |"`. -/
def renderRow (result : AnalysisResult) : String :=
  "| " ++ result.wheel_info.filename ++ " | " ++ archStr result ++ " |"

/-- Embeds `generate_pip_table` (the `package` and `version` arguments are
unused in the source body as well). -/
def generate_pip_table (package version : String) (results : List AnalysisResult) : String :=
  pyJoin "\n" ("| package | architectures |" :: "|---------|---------------|" ::
    results.map renderRow)

/-- Embeds the inner `sort_key` of `generate_comprehensive_pip_table`:
negated integer components of the package version, paired with integer
components of the Python version; `none` models the uncaught `ValueError`
when a component does not parse. -/
def sort_key (result : AnalysisResult) : Option (List Int × List Int) :=
  match (pySplit '.' result.package_version).mapM pyInt,
        (pySplit '.' result.wheel_info.python_version).mapM pyInt with
  | some version_parts, some python_parts =>
    some (version_parts.map fun x => -x, python_parts)
  | _, _ => none

/-- Strict comparison of composite sort keys, as Python compares the tuples
returned by `sort_key`. -/
def compKeyLt (k₁ k₂ : List Int × List Int) : Bool :=
  if lexLt intLtB k₁.1 k₂.1 then true
  else if lexLt intLtB k₂.1 k₁.1 then false
  else lexLt intLtB k₁.2 k₂.2

/-- Ascending comparison on key-decorated results used by
`sorted(all_results, key=sort_key)`. -/
def compKeyLe (p q : (List Int × List Int) × AnalysisResult) : Bool :=
  !(compKeyLt q.1 p.1)

/-- Embeds `generate_comprehensive_pip_table`; `none` models the uncaught
`ValueError` escaping when some result's sort key cannot be computed. -/
def generate_comprehensive_pip_table (all_results : List AnalysisResult) : Option String :=
  match decorate sort_key all_results with
  | none => none
  | some keyed =>
    let sorted_results := (pySort compKeyLe keyed).map fun p => p.2
    some (pyJoin "\n" ("| package | architectures |" :: "|---------|---------------|" ::
      sorted_results.map renderRow))

/-! ## Re-parsing the rendered table

The source never re-parses its own table; the reading side of the spec's
round-trip property is therefore defined from the spec's words. -/

/-- Split a character list on the two-character separator `", "`, as Python's
`s.split(", ")`: cut at every (leftmost-first) occurrence of `", "`. -/
def splitCommaSpace : List Char → List (List Char)
  | [] => [[]]
  | [c] => [[c]]
  | c :: d :: rest =>
    if c = ',' ∧ d = ' ' then [] :: splitCommaSpace rest
    else
      match splitCommaSpace (d :: rest) with
      | t :: ts => (c :: t) :: ts
      | [] => [[c]]

/-- Modelled from the spec: the source has no table re-parser, so the
architectures cell is read back per the spec's round-trip property — the
empty cell is the empty set, otherwise the cell is split on `", "`. -/
def specParseArchCell (cell : String) : List String :=
  if cell = "" then [] else (splitCommaSpace cell.data).map String.mk

/-- Modelled from the spec: re-parse one pipe-delimited data row
`| package | architectures |` into its two stripped cells. -/
def specParseRow (row : String) : Option (String × List String) :=
  match splitOnCharL '|' row.data with
  | [c₀, c₁, c₂, c₃] =>
    if c₀ = [] ∧ c₃ = [] then some (pyStrip ⟨c₁⟩, specParseArchCell (pyStrip ⟨c₂⟩))
    else none
  | _ => none

/-- Modelled from the spec: re-parse a rendered table — drop the header and
separator rows, then parse every data row. -/
def specParseTable (table : String) : Option (List (String × List String)) :=
  match splitOnCharL '\n' table.data with
  | _ :: _ :: rows => (rows.map String.mk).mapM specParseRow
  | _ => none

example : specParseTable (generate_pip_table "torch" "2.8.0"
    [{ wheel_info := { filename := "a.whl", url := "u", size := 1,
                       python_version := "3.13", platform_tag := "m" },
       cuda_architectures := ["sm_80", "sm_90"], package_version := "2.8.0" }]) =
    some [("a.whl", ["sm_80", "sm_90"])] := by decide

/-! ## Helper lemmas about `extract_python_version_from_filename` -/

theorem isPre_cp_iff (l : List Char) :
    isPre ['c', 'p'] l = true ↔ ∃ r, l = 'c' :: 'p' :: r := by
  match l with
  | [] => simp [isPre]
  | [a] => simp [isPre]
  | a :: b :: r =>
    simp only [isPre, Bool.and_eq_true, decide_eq_true_eq]
    constructor
    · rintro ⟨h₁, h₂, _⟩
      exact ⟨r, by rw [← h₁, ← h₂]⟩
    · rintro ⟨r', hr⟩
      injection hr with h₁ hr'
      injection hr' with h₂ _
      exact ⟨h₁.symm, h₂.symm, trivial⟩

theorem mk_ne_unknown (mj mn : Char) (r : List Char) :
    (⟨mj :: '.' :: mn :: r⟩ : String) ≠ "unknown" := by
  intro h
  have hd : mj :: '.' :: mn :: r = ("unknown" : String).data := congrArg String.data h
  rw [show ("unknown" : String).data = ['u', 'n', 'k', 'n', 'o', 'w', 'n'] from rfl] at hd
  injection hd with _ hd'
  injection hd' with hdot _
  exact absurd hdot (by decide)

/-- Complete input/output characterization of
`extract_python_version_from_filename`, proved once and shared. -/
theorem extract_characterization (filename : String) :
    (extract_python_version_from_filename filename ≠ "unknown" ↔
      ∃ p₀ p₁ tag rest, pySplit '-' filename = p₀ :: p₁ :: tag :: rest ∧
        ∃ mj mn r, tag.data = 'c' :: 'p' :: mj :: mn :: r) ∧
    (∀ p₀ p₁ tag rest mj mn r,
      pySplit '-' filename = p₀ :: p₁ :: tag :: rest →
      tag.data = 'c' :: 'p' :: mj :: mn :: r →
      extract_python_version_from_filename filename = ⟨mj :: '.' :: mn :: r⟩) := by
  rcases hsplit : pySplit '-' filename with _ | ⟨p0, _ | ⟨p1, _ | ⟨tag, rest⟩⟩⟩
  · constructor
    · rw [extract_python_version_from_filename, hsplit]
      simp
    · intro _ _ _ _ _ _ _ hcontra
      exact absurd hcontra (by simp)
  · constructor
    · rw [extract_python_version_from_filename, hsplit]
      simp
    · intro _ _ _ _ _ _ _ hcontra
      exact absurd hcontra (by simp)
  · constructor
    · rw [extract_python_version_from_filename, hsplit]
      simp
    · intro _ _ _ _ _ _ _ hcontra
      exact absurd hcontra (by simp)
  · have hbody : extract_python_version_from_filename filename =
        (if isPre ['c', 'p'] tag.data then
          match tag.data.drop 2 with
          | major :: m :: rr => (⟨major :: '.' :: m :: rr⟩ : String)
          | _ => "unknown"
        else "unknown") := by
      rw [extract_python_version_from_filename, hsplit]
    by_cases hcp : isPre ['c', 'p'] tag.data = true
    · rcases (isPre_cp_iff tag.data).mp hcp with ⟨r, hr⟩
      have hdrop : tag.data.drop 2 = r := by rw [hr]; rfl
      rcases r with _ | ⟨mj, _ | ⟨mn, rr⟩⟩
      · rw [hbody, if_pos hcp, hdrop]
        constructor
        · simp only [ne_eq, not_true_eq_false, false_iff]
          rintro ⟨q₀, q₁, tag', rest', hsp, mj', mn', r', htag'⟩
          injection hsp with h₁ hsp'
          injection hsp' with h₂ hsp''
          injection hsp'' with h₃ _
          rw [← h₃, hr] at htag'
          simp at htag'
        · intro q₀ q₁ tag' rest' mj' mn' r' hsp htag'
          injection hsp with h₁ hsp'
          injection hsp' with h₂ hsp''
          injection hsp'' with h₃ _
          rw [← h₃, hr] at htag'
          simp at htag'
      · rw [hbody, if_pos hcp, hdrop]
        constructor
        · simp only [ne_eq, not_true_eq_false, false_iff]
          rintro ⟨q₀, q₁, tag', rest', hsp, mj', mn', r', htag'⟩
          injection hsp with h₁ hsp'
          injection hsp' with h₂ hsp''
          injection hsp'' with h₃ _
          rw [← h₃, hr] at htag'
          simp at htag'
        · intro q₀ q₁ tag' rest' mj' mn' r' hsp htag'
          injection hsp with h₁ hsp'
          injection hsp' with h₂ hsp''
          injection hsp'' with h₃ _
          rw [← h₃, hr] at htag'
          simp at htag'
      · have hres : extract_python_version_from_filename filename =
            (⟨mj :: '.' :: mn :: rr⟩ : String) := by
          rw [hbody, if_pos hcp, hdrop]
        constructor
        · rw [hres]
          simp only [ne_eq, mk_ne_unknown, not_false_eq_true, true_iff]
          exact ⟨p0, p1, tag, rest, rfl, mj, mn, rr, by rw [hr]⟩
        · intro q₀ q₁ tag' rest' mj' mn' r' hsp htag'
          injection hsp with h₁ hsp'
          injection hsp' with h₂ hsp''
          injection hsp'' with h₃ _
          rw [← h₃, hr] at htag'
          injection htag' with _ htag₂
          injection htag₂ with _ htag₃
          injection htag₃ with hmj htag₄
          injection htag₄ with hmn hrr
          rw [hres, hmj, hmn, hrr]
    · have hunk : extract_python_version_from_filename filename = "unknown" := by
        rw [hbody, if_neg hcp]
      constructor
      · rw [hunk]
        simp only [ne_eq, not_true_eq_false, false_iff]
        rintro ⟨q₀, q₁, tag', rest', hsp, mj', mn', r', htag'⟩
        injection hsp with h₁ hsp'
        injection hsp' with h₂ hsp''
        injection hsp'' with h₃ _
        exact hcp ((isPre_cp_iff tag.data).mpr ⟨mj' :: mn' :: r', by rw [h₃, htag']⟩)
      · intro q₀ q₁ tag' rest' mj' mn' r' hsp htag'
        injection hsp with h₁ hsp'
        injection hsp' with h₂ hsp''
        injection hsp'' with h₃ _
        exact absurd ((isPre_cp_iff tag.data).mpr ⟨mj' :: mn' :: r', by rw [h₃, htag']⟩) hcp

/-! ## Claim C10 -/

/-- C10: `extract_python_version_from_filename` is total (it is a Lean
function), and returns something other than `"unknown"` exactly when the
input splits on `"-"` into at least three parts whose third part starts
with `"cp"` followed by at least two characters; in that case the result is
the first character after `"cp"`, a dot, and all remaining characters, with
no digit check. -/
theorem extract_python_version_total_characterization (filename : String) :
    (extract_python_version_from_filename filename ≠ "unknown" ↔
      ∃ p₀ p₁ tag rest, pySplit '-' filename = p₀ :: p₁ :: tag :: rest ∧
        ∃ mj mn r, tag.data = 'c' :: 'p' :: mj :: mn :: r) ∧
    (∀ p₀ p₁ tag rest mj mn r,
      pySplit '-' filename = p₀ :: p₁ :: tag :: rest →
      tag.data = 'c' :: 'p' :: mj :: mn :: r →
      extract_python_version_from_filename filename = ⟨mj :: '.' :: mn :: r⟩) :=
  extract_characterization filename

/-- Witness for C10 at a concrete filename: `"a-b-cpxy9"` is mapped to
`"x.y9"` (note: no digit check), matching the characterization. -/
theorem extract_python_version_total_characterization_witness :
    extract_python_version_from_filename "a-b-cpxy9" = "x.y9" ∧
    extract_python_version_from_filename "a-b-cpxy9" ≠ "unknown" := by
  refine ⟨?_, ?_⟩
  · exact (extract_python_version_total_characterization "a-b-cpxy9").2
      "a" "b" "cpxy9" [] 'x' 'y' ['9'] (by decide) (by decide)
  · exact (extract_python_version_total_characterization "a-b-cpxy9").1.mpr
      ⟨"a", "b", "cpxy9", [], by decide, 'x', 'y', ['9'], by decide⟩

/-! ## Claim C3 -/

/-- C3 counterexample: `"a-b-cp39"` does not match the 5-segment wheel-naming
scheme (its dash-split has only three segments), yet the function returns
`"3.9"`, not `"unknown"`. -/
theorem extract_python_version_non_wheel_counterexample :
    extract_python_version_from_filename "a-b-cp39" = "3.9" ∧
    (pySplit '-' "a-b-cp39").length = 3 ∧
    ("3.9" : String) ≠ "unknown" := by decide

/-- C3 (amended): for every wheel filename splitting on dashes into the
5-segment scheme whose third segment is `cpMNN` (prefix `"cp"`, digit `M`,
nonempty digits `NN`), the function returns `"M.NN"`; but a filename of any
other shape returns `"unknown"` only when its dash-split has fewer than
three parts or its third part does not start with `"cp"` followed by at
least two characters (neither five segments nor digits are required). -/
theorem extract_python_version_wheel_scheme (filename name ver tag abi plat : String)
    (mj : Char) (mn : List Char)
    (hsplit : pySplit '-' filename = [name, ver, tag, abi, plat])
    (htag : tag.data = 'c' :: 'p' :: mj :: mn)
    (hmj : mj.isDigit = true) (hmn : mn.all Char.isDigit = true) (hne : mn ≠ []) :
    extract_python_version_from_filename filename = ⟨mj :: '.' :: mn⟩ := by
  rcases mn with _ | ⟨mn₀, mnr⟩
  · exact absurd rfl hne
  · exact (extract_characterization filename).2 name ver tag [abi, plat] mj mn₀ mnr
      (by rw [hsplit]) htag

/-- Witness for C3 at the real wheel filename from the source's docstring. -/
theorem extract_python_version_wheel_scheme_witness :
    extract_python_version_from_filename
      "torch-2.8.0-cp313-cp313-manylinux_2_28_x86_64.whl" = "3.13" :=
  (extract_python_version_wheel_scheme
    "torch-2.8.0-cp313-cp313-manylinux_2_28_x86_64.whl"
    "torch" "2.8.0" "cp313" "cp313" "manylinux_2_28_x86_64.whl"
    '3' ['1', '3'] (by decide) (by decide) (by decide) (by decide) (by decide)).trans rfl

/-! ## Decoration lemma shared by the key-based sorts -/

theorem decorate_some {f : α → Option β} {l : List α} (h : ∀ a ∈ l, (f a).isSome) :
    ∃ kl, decorate f l = some kl ∧ kl.map (fun p => p.2) = l ∧
      ∀ p ∈ kl, f p.2 = some p.1 := by
  induction l with
  | nil => exact ⟨[], rfl, rfl, by simp⟩
  | cons a t ih =>
    obtain ⟨b, hb⟩ := Option.isSome_iff_exists.mp (h a (List.mem_cons_self a t))
    obtain ⟨kl, hkl, hmap, hmem⟩ := ih fun x hx => h x (List.mem_cons_of_mem a hx)
    refine ⟨(b, a) :: kl, ?_, by simp [hmap], ?_⟩
    · simp only [decorate] at hkl ⊢
      rw [List.mapM_cons, hb, hkl]
      rfl
    · intro p hp
      rcases List.mem_cons.mp hp with h' | h'
      · rw [h']
        exact hb
      · exact hmem p h'

/-! ## Order lemmas for the version sort -/

theorem versionDescLe_total (p q : List Int × String) :
    versionDescLe p q = true ∨ versionDescLe q p = true := by
  cases h : lexLt intLtB p.1 q.1 with
  | false => left; simp [versionDescLe, h]
  | true =>
    right
    simp [versionDescLe, lexLt_asymm intLtB (fun _ _ => intLtB_asymm) p.1 q.1 h]

theorem versionDescLe_trans (a b c : List Int × String)
    (h₁ : versionDescLe a b = true) (h₂ : versionDescLe b c = true) :
    versionDescLe a c = true := by
  simp only [versionDescLe, Bool.not_eq_true'] at h₁ h₂ ⊢
  cases hac : lexLt intLtB a.1 c.1 with
  | false => rfl
  | true =>
    cases hba : lexLt intLtB b.1 a.1 with
    | true =>
      have hbc := lexLt_trans intLtB (fun _ _ => intLtB_conn) (fun _ _ _ => intLtB_trans)
        b.1 a.1 c.1 hba hac
      rw [hbc] at h₂
      exact absurd h₂ (by simp)
    | false =>
      have hab : a.1 = b.1 := lexLt_conn intLtB (fun _ _ => intLtB_conn) a.1 b.1 h₁ hba
      rw [hab] at hac
      rw [hac] at h₂
      exact absurd h₂ (by simp)

/-! ## Claim C1 -/

/-- C1 counterexample: `"2.0.post1"` starts with `"2."` and contains none of
the markers `"rc"`, `"dev"`, `"a"`, `"b"`, so the claim requires it in the
output; but `int("post1")` raises, the exception is caught, and the function
returns `[]` instead. -/
theorem get_all_pytorch_2x_versions_counterexample :
    keepsVersion "2.0.post1" = true ∧
    version_key "2.0.post1" = none ∧
    get_all_pytorch_2x_versions ["2.0.post1"] = [] := by decide

/-- C1 (amended): provided every kept version's dotted components all parse
as integers, `get_all_pytorch_2x_versions` excludes every version containing
`"rc"`, `"dev"`, `"a"` or `"b"`, includes every other version starting with
`"2."`, and returns them sorted descending by numeric comparison of their
dotted integer components; when some kept version has a non-integer
component, the function instead returns `[]`. -/
theorem get_all_pytorch_2x_versions_filter_sort (all_versions : List String)
    (h : ∀ v ∈ all_versions, keepsVersion v = true → (version_key v).isSome) :
    List.Perm (get_all_pytorch_2x_versions all_versions)
      (all_versions.filter keepsVersion) ∧
    (get_all_pytorch_2x_versions all_versions).Pairwise
      (fun a b => lexLt intLtB ((version_key a).getD []) ((version_key b).getD []) = false) ∧
    ∀ v, v ∈ get_all_pytorch_2x_versions all_versions ↔
      v ∈ all_versions ∧ keepsVersion v = true := by
  have hkept : ∀ v ∈ all_versions.filter keepsVersion, (version_key v).isSome := by
    intro v hv
    rw [List.mem_filter] at hv
    exact h v hv.1 hv.2
  obtain ⟨kl, hkl, hmap, hmem⟩ := decorate_some hkept
  have hout : get_all_pytorch_2x_versions all_versions =
      (pySort versionDescLe kl).map fun p => p.2 := by
    simp only [get_all_pytorch_2x_versions]
    rw [hkl]
  have hperm : List.Perm (get_all_pytorch_2x_versions all_versions)
      (all_versions.filter keepsVersion) := by
    rw [hout, ← hmap]
    exact (pySort_perm versionDescLe kl).map _
  refine ⟨hperm, ?_, ?_⟩
  · rw [hout, List.pairwise_map]
    refine (pySort_pairwise versionDescLe versionDescLe_trans versionDescLe_total kl).imp_of_mem
      ?_
    intro p q hpmem hqmem hle
    rw [hmem p (pySort_mem.mp hpmem), hmem q (pySort_mem.mp hqmem)]
    simp only [Option.getD_some]
    simpa [versionDescLe, Bool.not_eq_true'] using hle
  · intro v
    rw [hperm.mem_iff, List.mem_filter]

/-- Witness for C1 at the spec's own example input. -/
theorem get_all_pytorch_2x_versions_filter_sort_witness :
    (∀ v ∈ ["2.0.0", "2.1.0rc1", "2.1.0", "1.13.0"],
      keepsVersion v = true → (version_key v).isSome) ∧
    List.Perm (get_all_pytorch_2x_versions ["2.0.0", "2.1.0rc1", "2.1.0", "1.13.0"])
      ((["2.0.0", "2.1.0rc1", "2.1.0", "1.13.0"]).filter keepsVersion) ∧
    get_all_pytorch_2x_versions ["2.0.0", "2.1.0rc1", "2.1.0", "1.13.0"] =
      ["2.1.0", "2.0.0"] :=
  ⟨by decide,
   (get_all_pytorch_2x_versions_filter_sort ["2.0.0", "2.1.0rc1", "2.1.0", "1.13.0"]
     (by decide)).1,
   by decide⟩

/-! ## Helper lemmas about `get_wheel_download_links` -/

/-- Predicate of the wheel filter of `get_wheel_download_links`: package type
`"bdist_wheel"` and filename containing `"manylinux_2_28_x86_64"`. -/
def keepFileB (f : FileInfo) : Bool :=
  (f.packagetype == some "bdist_wheel") &&
    (match f.filename with
     | some fn => pyContains "manylinux_2_28_x86_64" fn
     | none => false)

/-- The `wheel_info` record built for a kept metadata entry (the `getD`
defaults are never hit on entries for which `collectWheels` succeeded). -/
def toWheel (f : FileInfo) : WheelInfo :=
  { filename := f.filename.getD "", url := f.url.getD "", size := f.size.getD 0,
    python_version := extract_python_version_from_filename (f.filename.getD ""),
    platform_tag := "manylinux_2_28_x86_64" }

theorem collectWheels_ok {files : List FileInfo} {ws : List WheelInfo}
    (h : collectWheels files = Except.ok ws) :
    ws = (files.filter keepFileB).map toWheel := by
  induction files generalizing ws with
  | nil =>
    simp only [collectWheels] at h
    injection h with h'
    simp [← h']
  | cons f rest ih =>
    simp only [collectWheels] at h
    split at h
    · exact absurd h (by simp)
    · next pt hpt =>
      split at h
      · next hbd =>
        split at h
        · exact absurd h (by simp)
        · next fn hfn =>
          split at h
          · next hcont =>
            split at h
            · next u sz hu hsz =>
              cases hrec : collectWheels rest with
              | error e =>
                rw [hrec] at h
                exact absurd h (by simp [Except.map])
              | ok ws' =>
                rw [hrec] at h
                simp only [Except.map] at h
                injection h with h'
                have hkeep : keepFileB f = true := by
                  simp [keepFileB, hpt, hbd, hfn, hcont]
                rw [← h', ih hrec, List.filter_cons, hkeep]
                simp [toWheel, hfn, hu, hsz]
            · exact absurd h (by simp)
          · next hncont =>
            have hkeep : keepFileB f = false := by
              simp [keepFileB, hfn]
              intro
              simpa using hncont
            rw [List.filter_cons, hkeep]
            simp [ih h]
      · next hnbd =>
        have hkeep : keepFileB f = false := by
          simp [keepFileB, hpt]
          intro hcontra
          exact absurd hcontra hnbd
        rw [List.filter_cons, hkeep]
        simp [ih h]

theorem wheelLeB_total (a b : WheelInfo) : wheelLeB a b = true ∨ wheelLeB b a = true :=
  strLeB_total a.python_version b.python_version

theorem wheelLeB_trans (a b c : WheelInfo)
    (h₁ : wheelLeB a b = true) (h₂ : wheelLeB b c = true) : wheelLeB a c = true :=
  strLeB_trans h₁ h₂

/-! ## Claim C2 -/

/-- C2: for a metadata entry list whose processing raises no `KeyError`, the
output of `get_wheel_download_links` consists of exactly the wheel records
of the entries with package type `"bdist_wheel"` and a filename containing
`"manylinux_2_28_x86_64"`, and is sorted ascending by the derived
interpreter-version string (lexicographic string comparison). -/
theorem get_wheel_download_links_filter_sort (files : List FileInfo) (ws : List WheelInfo)
    (h : collectWheels files = Except.ok ws) :
    List.Perm (get_wheel_download_links (Except.ok ⟨some files⟩))
      ((files.filter keepFileB).map toWheel) ∧
    (get_wheel_download_links (Except.ok ⟨some files⟩)).Pairwise
      (fun a b => wheelLeB a b = true) ∧
    ∀ w, w ∈ get_wheel_download_links (Except.ok ⟨some files⟩) ↔
      ∃ f ∈ files, keepFileB f = true ∧ w = toWheel f := by
  have hout : get_wheel_download_links (Except.ok ⟨some files⟩) = pySort wheelLeB ws := by
    simp only [get_wheel_download_links]
    rw [h]
  refine ⟨?_, ?_, ?_⟩
  · rw [hout, ← collectWheels_ok h]
    exact pySort_perm wheelLeB ws
  · rw [hout]
    exact pySort_pairwise wheelLeB wheelLeB_trans wheelLeB_total ws
  · intro w
    rw [hout, pySort_mem, collectWheels_ok h, List.mem_map]
    constructor
    · rintro ⟨f, hf, hw⟩
      rw [List.mem_filter] at hf
      exact ⟨f, hf.1, hf.2, hw.symm⟩
    · rintro ⟨f, hf, hkeep, hw⟩
      exact ⟨f, List.mem_filter.mpr ⟨hf, hkeep⟩, hw.symm⟩

/-- Witness for C2: one binary wheel on the target platform, one sdist, and
one binary wheel for another platform; only the first survives. -/
theorem get_wheel_download_links_filter_sort_witness :
    collectWheels
      [{ packagetype := some "bdist_wheel",
         filename := some "torch-2.8.0-cp313-cp313-manylinux_2_28_x86_64.whl",
         url := some "u1", size := some 10 },
       { packagetype := some "sdist", filename := some "torch-2.8.0.tar.gz",
         url := some "u2", size := some 5 },
       { packagetype := some "bdist_wheel",
         filename := some "torch-2.8.0-cp313-cp313-win_amd64.whl",
         url := some "u3", size := some 7 }] =
      Except.ok [{ filename := "torch-2.8.0-cp313-cp313-manylinux_2_28_x86_64.whl",
                   url := "u1", size := 10, python_version := "3.13",
                   platform_tag := "manylinux_2_28_x86_64" }] ∧
    List.Perm (get_wheel_download_links (Except.ok ⟨some
      [{ packagetype := some "bdist_wheel",
         filename := some "torch-2.8.0-cp313-cp313-manylinux_2_28_x86_64.whl",
         url := some "u1", size := some 10 },
       { packagetype := some "sdist", filename := some "torch-2.8.0.tar.gz",
         url := some "u2", size := some 5 },
       { packagetype := some "bdist_wheel",
         filename := some "torch-2.8.0-cp313-cp313-win_amd64.whl",
         url := some "u3", size := some 7 }]⟩))
      ((([{ packagetype := some "bdist_wheel",
            filename := some "torch-2.8.0-cp313-cp313-manylinux_2_28_x86_64.whl",
            url := some "u1", size := some 10 },
          { packagetype := some "sdist", filename := some "torch-2.8.0.tar.gz",
            url := some "u2", size := some 5 },
          { packagetype := some "bdist_wheel",
            filename := some "torch-2.8.0-cp313-cp313-win_amd64.whl",
            url := some "u3", size := some 7 }] : List FileInfo).filter keepFileB).map toWheel) :=
  ⟨rfl,
   (get_wheel_download_links_filter_sort
     [{ packagetype := some "bdist_wheel",
        filename := some "torch-2.8.0-cp313-cp313-manylinux_2_28_x86_64.whl",
        url := some "u1", size := some 10 },
      { packagetype := some "sdist", filename := some "torch-2.8.0.tar.gz",
        url := some "u2", size := some 5 },
      { packagetype := some "bdist_wheel",
        filename := some "torch-2.8.0-cp313-cp313-win_amd64.whl",
        url := some "u3", size := some 7 }]
     [{ filename := "torch-2.8.0-cp313-cp313-manylinux_2_28_x86_64.whl",
        url := "u1", size := 10, python_version := "3.13",
        platform_tag := "manylinux_2_28_x86_64" }] rfl).1⟩

/-! ## Claim C8 -/

/-- The error situations of `get_wheel_download_links`: the fetch raised a
`requests` exception (which includes JSON decoding errors), the metadata has
no `"urls"` key, or some processed entry is missing an accessed key. -/
def fetchErrCase (input : Except Unit PackageInfo) : Prop :=
  input = Except.error () ∨ input = Except.ok ⟨none⟩ ∨
    ∃ files, input = Except.ok ⟨some files⟩ ∧ collectWheels files = Except.error ()

/-- C8: on every fetch or parse error (modelled by `fetchErrCase`),
`get_wheel_download_links` returns the empty list; being a total Lean
function it propagates no exception. -/
theorem get_wheel_download_links_error_empty (input : Except Unit PackageInfo)
    (h : fetchErrCase input) :
    get_wheel_download_links input = [] := by
  rcases h with h | h | ⟨files, h, hcw⟩ <;> subst h
  · rfl
  · rfl
  · simp only [get_wheel_download_links]
    rw [hcw]

/-- Witness for C8: a metadata entry with no keys at all makes the loop raise
`KeyError`, and the function returns `[]`. -/
theorem get_wheel_download_links_error_empty_witness :
    fetchErrCase (Except.ok ⟨some [{ packagetype := none, filename := none,
                                     url := none, size := none }]⟩) ∧
    get_wheel_download_links (Except.ok ⟨some [{ packagetype := none, filename := none,
                                                 url := none, size := none }]⟩) = [] :=
  ⟨Or.inr (Or.inr ⟨_, rfl, rfl⟩),
   get_wheel_download_links_error_empty _ (Or.inr (Or.inr ⟨_, rfl, rfl⟩))⟩

/-! ## Claim C7 -/

/-- C7 counterexample: eleven output lines contain `"sm_"` and none contains
`"arch"`; the fallback tier returns all eleven stripped lines, not just the
first 10 (the `[:10]` slice in the source only limits the diagnostic
printout). -/
theorem get_cuda_architectures_fallback_counterexample :
    get_cuda_architectures true (Except.ok
      "sm_1\nsm_2\nsm_3\nsm_4\nsm_5\nsm_6\nsm_7\nsm_8\nsm_9\nsm_10\nsm_11") =
      ["sm_1", "sm_2", "sm_3", "sm_4", "sm_5", "sm_6", "sm_7", "sm_8", "sm_9",
       "sm_10", "sm_11"] ∧
    (get_cuda_architectures true (Except.ok
      "sm_1\nsm_2\nsm_3\nsm_4\nsm_5\nsm_6\nsm_7\nsm_8\nsm_9\nsm_10\nsm_11")).length = 11 := by
  decide

/-- C7 (amended): when no output line contains the case-insensitive substring
`"arch"`, the fallback tier keeps **all** lines containing the
case-insensitive substring `"sm_"` (stripped), and that unlimited list is the
returned result; only the diagnostic printout is limited to the first 10
matches. -/
theorem get_cuda_architectures_sm_fallback (stdout : String)
    (h : ∀ line ∈ pySplit '\n' stdout, pyContains "arch" (pyLower line) = false) :
    get_cuda_architectures true (Except.ok stdout) =
      ((pySplit '\n' stdout).filter fun line => pyContains "sm_" (pyLower line)).map
        pyStrip := by
  simp only [get_cuda_architectures]
  have harch : (pySplit '\n' stdout).filter (fun line => pyContains "arch" (pyLower line)) =
      [] := by
    rw [List.filter_eq_nil_iff]
    intro a ha
    simp [h a ha]
  rw [harch]
  by_cases hsm : ((pySplit '\n' stdout).filter fun line =>
      pyContains "sm_" (pyLower line)).map pyStrip = []
  · simp [hsm]
  · simp [hsm]

/-- Witness for C7 on concrete output lines without `"arch"`. -/
theorem get_cuda_architectures_sm_fallback_witness :
    (∀ line ∈ pySplit '\n' "foo sm_70\nbar", pyContains "arch" (pyLower line) = false) ∧
    get_cuda_architectures true (Except.ok "foo sm_70\nbar") =
      ((pySplit '\n' "foo sm_70\nbar").filter fun line =>
        pyContains "sm_" (pyLower line)).map pyStrip :=
  ⟨by decide, get_cuda_architectures_sm_fallback "foo sm_70\nbar" (by decide)⟩

/-! ## Helper lemmas about the architecture-token extraction -/

theorem takeWhile_append_eq {p : α → Bool} : ∀ (ds ls : List α),
    (∀ a ∈ ds, p a = true) → (∀ h : ls ≠ [], p (ls.head h) = false) →
    (ds ++ ls).takeWhile p = ds ∧ (ds ++ ls).dropWhile p = ls
  | [], ls, _, hhead => by
    cases ls with
    | nil => simp
    | cons y t =>
      have hy : p y = false := hhead (by simp)
      simp [List.takeWhile_cons, List.dropWhile_cons, hy]
  | d :: ds', ls, hds, hhead => by
    have hd : p d = true := hds d (by simp)
    have ih := takeWhile_append_eq ds' ls (fun a ha => hds a (by simp [ha])) hhead
    simp [List.takeWhile_cons, List.dropWhile_cons, hd, ih.1, ih.2]

theorem isArchToken_mk (rest : List Char) :
    isArchToken ⟨'s' :: 'm' :: '_' :: rest⟩ =
      (decide (rest.takeWhile Char.isDigit ≠ []) &&
        (rest.dropWhile Char.isDigit).all Char.isLower) := by
  simp [isArchToken, isPre]

theorem smMatchAt_isArchToken {l m : List Char} (h : smMatchAt l = some m) :
    isArchToken ⟨m⟩ = true := by
  simp only [smMatchAt] at h
  split at h
  · by_cases hds : (l.drop 3).takeWhile Char.isDigit = []
    · rw [if_pos hds] at h
      exact absurd h (by simp)
    · rw [if_neg hds] at h
      injection h with hm
      have hhead : ∀ hne : (((l.drop 3).dropWhile Char.isDigit).takeWhile Char.isLower) ≠ [],
          Char.isDigit ((((l.drop 3).dropWhile Char.isDigit).takeWhile Char.isLower).head hne)
            = false := by
        intro hne
        rw [List.head_takeWhile]
        exact List.head_dropWhile_not Char.isDigit (l.drop 3) _
      have hparts := takeWhile_append_eq ((l.drop 3).takeWhile Char.isDigit)
        (((l.drop 3).dropWhile Char.isDigit).takeWhile Char.isLower)
        (fun a ha => List.mem_takeWhile_imp ha) hhead
      rw [← hm, isArchToken_mk, hparts.1, hparts.2]
      have hall : (((l.drop 3).dropWhile Char.isDigit).takeWhile Char.isLower).all
          Char.isLower = true := by
        rw [List.all_eq_true]
        intro x hx
        exact List.mem_takeWhile_imp hx
      rw [hall]
      simp [hds]
  · exact absurd h (by simp)

theorem reSearchSm_isArchToken : ∀ {l m : List Char},
    reSearchSm l = some m → isArchToken ⟨m⟩ = true
  | [], _, h => by simp [reSearchSm] at h
  | c :: rest, m, h => by
    simp only [reSearchSm] at h
    cases hm : smMatchAt (c :: rest) with
    | some m' =>
      rw [hm] at h
      injection h with h'
      rw [← h']
      exact smMatchAt_isArchToken hm
    | none =>
      rw [hm] at h
      exact reSearchSm_isArchToken h

theorem cleanArchList_isArchToken {archs : List String} {a : String}
    (h : a ∈ cleanArchList archs) : isArchToken a = true := by
  simp only [cleanArchList, List.mem_filterMap] at h
  obtain ⟨arch, _, hf⟩ := h
  by_cases hc : pyContains "sm_" arch = true
  · rw [if_pos hc] at hf
    obtain ⟨m, hm, hmk⟩ := Option.map_eq_some'.mp hf
    rw [← hmk]
    exact reSearchSm_isArchToken hm
  · rw [if_neg hc] at hf
    exact absurd hf (by simp)

/-! ## Claim C4 -/

/-- C4: in every result record produced by `analyze_all_wheels`, the
`cuda_architectures` list is deduplicated and strictly sorted
lexicographically, and every element is a full match of the stricter regex
`sm_` + digits + optional trailing lowercase letters. -/
theorem analyze_all_wheels_arch_invariant (inspect : WheelInfo → Except Unit (List String))
    (wheels : List WheelInfo) (package_version : String) (r : AnalysisResult)
    (hr : r ∈ analyze_all_wheels inspect wheels package_version) :
    r.cuda_architectures.Nodup ∧
    r.cuda_architectures.Pairwise (fun a b => strLtB a b = true) ∧
    ∀ a ∈ r.cuda_architectures, isArchToken a = true := by
  simp only [analyze_all_wheels, List.mem_map] at hr
  obtain ⟨w, _, hw⟩ := hr
  cases hins : inspect w with
  | ok archs =>
    rw [hins] at hw
    rw [← hw]
    refine ⟨pySortedSet_nodup _, pySortedSet_pairwise_lt _, ?_⟩
    intro a ha
    exact cleanArchList_isArchToken (pySortedSet_mem.mp ha)
  | error e =>
    rw [hins] at hw
    rw [← hw]
    exact ⟨List.nodup_nil, List.Pairwise.nil, by simp⟩

/-- Witness for C4 on a concrete run with raw inspector lines. -/
theorem analyze_all_wheels_arch_invariant_witness :
    ({ wheel_info := { filename := "f.whl", url := "u", size := 1,
                       python_version := "3.9", platform_tag := "m" },
       cuda_architectures := ["sm_75", "sm_80"],
       package_version := "2.8.0" } : AnalysisResult) ∈
      analyze_all_wheels (fun _ => Except.ok ["Arch = sm_80", "x sm_75 y", "sm_80 again"])
        [{ filename := "f.whl", url := "u", size := 1,
           python_version := "3.9", platform_tag := "m" }] "2.8.0" ∧
    ∀ a ∈ (({ wheel_info := { filename := "f.whl", url := "u", size := 1,
                              python_version := "3.9", platform_tag := "m" },
              cuda_architectures := ["sm_75", "sm_80"],
              package_version := "2.8.0" } : AnalysisResult)).cuda_architectures,
      isArchToken a = true :=
  ⟨by decide,
   (analyze_all_wheels_arch_invariant
     (fun _ => Except.ok ["Arch = sm_80", "x sm_75 y", "sm_80 again"])
     [{ filename := "f.whl", url := "u", size := 1,
        python_version := "3.9", platform_tag := "m" }] "2.8.0"
     { wheel_info := { filename := "f.whl", url := "u", size := 1,
                       python_version := "3.9", platform_tag := "m" },
       cuda_architectures := ["sm_75", "sm_80"],
       package_version := "2.8.0" } (by decide)).2.2⟩

/-! ## Claim C5 -/

/-- C5: `analyze_all_wheels` returns exactly one result per input wheel, in
input order, carrying that wheel's record and package version; when the
per-wheel processing raises (`inspect` returns an error), that wheel's
result has an empty `cuda_architectures` list, and the loop still produces
results for all remaining wheels. -/
theorem analyze_all_wheels_one_result_per_wheel
    (inspect : WheelInfo → Except Unit (List String))
    (wheels : List WheelInfo) (package_version : String) :
    List.Forall₂ (fun w r => r.wheel_info = w ∧ r.package_version = package_version ∧
        (inspect w = Except.error () → r.cuda_architectures = []))
      wheels (analyze_all_wheels inspect wheels package_version) := by
  induction wheels with
  | nil => exact List.Forall₂.nil
  | cons w t ih =>
    simp only [analyze_all_wheels, List.map_cons] at ih ⊢
    refine List.Forall₂.cons ?_ ih
    cases hins : inspect w with
    | ok archs => simp [hins]
    | error e => simp [hins]

/-- Witness for C5: a two-wheel run whose first wheel fails inspection. -/
theorem analyze_all_wheels_one_result_per_wheel_witness :
    List.Forall₂ (fun w r => r.wheel_info = w ∧ r.package_version = "2.8.0" ∧
        ((if w.size = 1 then Except.error () else Except.ok ["sm_80"]) = Except.error () →
          r.cuda_architectures = []))
      [{ filename := "f1.whl", url := "u", size := 1,
         python_version := "3.9", platform_tag := "m" },
       { filename := "f2.whl", url := "u", size := 2,
         python_version := "3.10", platform_tag := "m" }]
      (analyze_all_wheels
        (fun w => if w.size = 1 then Except.error () else Except.ok ["sm_80"])
        [{ filename := "f1.whl", url := "u", size := 1,
           python_version := "3.9", platform_tag := "m" },
         { filename := "f2.whl", url := "u", size := 2,
           python_version := "3.10", platform_tag := "m" }] "2.8.0") :=
  analyze_all_wheels_one_result_per_wheel
    (fun w => if w.size = 1 then Except.error () else Except.ok ["sm_80"])
    [{ filename := "f1.whl", url := "u", size := 1,
       python_version := "3.9", platform_tag := "m" },
     { filename := "f2.whl", url := "u", size := 2,
       python_version := "3.10", platform_tag := "m" }] "2.8.0"

/-! ## Order lemmas for the composite table sort key -/

theorem lexLt_irrefl (r : α → α → Bool) (hi : ∀ a, r a a = false) :
    ∀ l : List α, lexLt r l l = false
  | [] => by simp [lexLt]
  | a :: as => by
    simp [lexLt, hi a, lexLt_irrefl r hi as]

theorem intLtB_irrefl (a : Int) : intLtB a a = false := by
  simp [intLtB]

theorem compKeyLt_asymm {k₁ k₂ : List Int × List Int} (h : compKeyLt k₁ k₂ = true) :
    compKeyLt k₂ k₁ = false := by
  simp only [compKeyLt] at h ⊢
  cases h₁ : lexLt intLtB k₁.1 k₂.1 with
  | true =>
    simp [lexLt_asymm intLtB (fun _ _ => intLtB_asymm) k₁.1 k₂.1 h₁]
  | false =>
    rw [h₁] at h
    simp only [Bool.false_eq_true, if_false] at h
    cases h₂ : lexLt intLtB k₂.1 k₁.1 with
    | true => rw [h₂] at h; simp at h
    | false =>
      rw [h₂] at h
      simp only [Bool.false_eq_true, if_false] at h
      simp [h₂, lexLt_asymm intLtB (fun _ _ => intLtB_asymm) k₁.2 k₂.2 h]

theorem compKeyLt_conn {k₁ k₂ : List Int × List Int}
    (h₁ : compKeyLt k₁ k₂ = false) (h₂ : compKeyLt k₂ k₁ = false) : k₁ = k₂ := by
  simp only [compKeyLt] at h₁ h₂
  cases ha : lexLt intLtB k₁.1 k₂.1 with
  | true => rw [ha] at h₁; simp at h₁
  | false =>
    cases hb : lexLt intLtB k₂.1 k₁.1 with
    | true => rw [hb] at h₂; simp at h₂
    | false =>
      rw [ha, hb] at h₁ h₂
      simp only [Bool.false_eq_true, if_false] at h₁ h₂
      have e1 : k₁.1 = k₂.1 := lexLt_conn intLtB (fun _ _ => intLtB_conn) k₁.1 k₂.1 ha hb
      have e2 : k₁.2 = k₂.2 := lexLt_conn intLtB (fun _ _ => intLtB_conn) k₁.2 k₂.2 h₁ h₂
      exact Prod.ext e1 e2

theorem compKeyLt_trans {k₁ k₂ k₃ : List Int × List Int}
    (h₁ : compKeyLt k₁ k₂ = true) (h₂ : compKeyLt k₂ k₃ = true) :
    compKeyLt k₁ k₃ = true := by
  simp only [compKeyLt] at h₁ h₂ ⊢
  cases ha : lexLt intLtB k₁.1 k₂.1 with
  | true =>
    cases hb : lexLt intLtB k₂.1 k₃.1 with
    | true =>
      rw [lexLt_trans intLtB (fun _ _ => intLtB_conn) (fun _ _ _ => intLtB_trans)
        k₁.1 k₂.1 k₃.1 ha hb]
      simp
    | false =>
      cases hc : lexLt intLtB k₃.1 k₂.1 with
      | true => rw [hb, hc] at h₂; simp at h₂
      | false =>
        have e : k₂.1 = k₃.1 := lexLt_conn intLtB (fun _ _ => intLtB_conn) k₂.1 k₃.1 hb hc
        rw [← e, ha]
        simp
  | false =>
    cases hb : lexLt intLtB k₂.1 k₁.1 with
    | true => rw [ha, hb] at h₁; simp at h₁
    | false =>
      have e : k₁.1 = k₂.1 := lexLt_conn intLtB (fun _ _ => intLtB_conn) k₁.1 k₂.1 ha hb
      rw [ha, hb] at h₁
      simp only [Bool.false_eq_true, if_false] at h₁
      cases hc : lexLt intLtB k₂.1 k₃.1 with
      | true =>
        rw [e, hc]
        simp
      | false =>
        cases hd : lexLt intLtB k₃.1 k₂.1 with
        | true => rw [hc, hd] at h₂; simp at h₂
        | false =>
          have e2 : k₂.1 = k₃.1 := lexLt_conn intLtB (fun _ _ => intLtB_conn) k₂.1 k₃.1 hc hd
          rw [hc, hd] at h₂
          simp only [Bool.false_eq_true, if_false] at h₂
          rw [e, e2, lexLt_irrefl intLtB intLtB_irrefl k₃.1]
          simp only [Bool.false_eq_true, if_false]
          exact lexLt_trans intLtB (fun _ _ => intLtB_conn) (fun _ _ _ => intLtB_trans)
            k₁.2 k₂.2 k₃.2 h₁ h₂

theorem compKeyLe_total (p q : (List Int × List Int) × AnalysisResult) :
    compKeyLe p q = true ∨ compKeyLe q p = true := by
  cases h : compKeyLt q.1 p.1 with
  | false => left; simp [compKeyLe, h]
  | true => right; simp [compKeyLe, compKeyLt_asymm h]

theorem compKeyLe_trans (a b c : (List Int × List Int) × AnalysisResult)
    (h₁ : compKeyLe a b = true) (h₂ : compKeyLe b c = true) : compKeyLe a c = true := by
  simp only [compKeyLe, Bool.not_eq_true'] at h₁ h₂ ⊢
  cases hca : compKeyLt c.1 a.1 with
  | false => rfl
  | true =>
    cases hab : compKeyLt a.1 b.1 with
    | true =>
      have := compKeyLt_trans hca hab
      rw [this] at h₂
      exact absurd h₂ (by simp)
    | false =>
      have e : a.1 = b.1 := compKeyLt_conn hab h₁
      rw [e] at hca
      rw [hca] at h₂
      exact absurd h₂ (by simp)

/-! ## Claim C6 -/

/-- C6 counterexample: with package versions `"2.8.0"` (input first) and
`"2.8"` and equal interpreter versions, the `"2.8"` row is emitted **before**
the `"2.8.0"` row, although `[2,8] < [2,8,0]` under numeric dotted-component
comparison, so descending order would put `"2.8.0"` first: the negated-key
trick sorts a proper-prefix version before its extension. -/
theorem generate_comprehensive_pip_table_counterexample :
    generate_comprehensive_pip_table
      [{ wheel_info := { filename := "A.whl", url := "u", size := 1,
                         python_version := "3.9", platform_tag := "m" },
         cuda_architectures := [], package_version := "2.8.0" },
       { wheel_info := { filename := "B.whl", url := "u", size := 1,
                         python_version := "3.9", platform_tag := "m" },
         cuda_architectures := [], package_version := "2.8" }] =
      some "| package | architectures |\n|---------|---------------|\n| B.whl |  |\n| A.whl |  |" ∧
    lexLt intLtB [2, 8] [2, 8, 0] = true ∧
    version_key "2.8" = some [2, 8] ∧
    version_key "2.8.0" = some [2, 8, 0] := by decide

/-- C6 (amended): for every list of analysis results whose package-version
and interpreter-version dotted components all parse as integers, the data
rows of the comprehensive table are one per result, ordered ascending by the
composite key (negated package-version components lexicographically, then
interpreter-version components) — which is version-descending only between
versions where neither component list is a proper prefix of the other; when
some component does not parse, the `ValueError` escapes (no table). -/
theorem generate_comprehensive_pip_table_sorted (all_results : List AnalysisResult)
    (h : ∀ r ∈ all_results, (sort_key r).isSome) :
    ∃ sorted_results : List AnalysisResult,
      generate_comprehensive_pip_table all_results =
        some (pyJoin "\n" ("| package | architectures |" :: "|---------|---------------|" ::
          sorted_results.map renderRow)) ∧
      List.Perm sorted_results all_results ∧
      sorted_results.Pairwise (fun r₁ r₂ =>
        compKeyLt ((sort_key r₂).getD ([], [])) ((sort_key r₁).getD ([], [])) = false) := by
  obtain ⟨kl, hkl, hmap, hmem⟩ := decorate_some h
  refine ⟨(pySort compKeyLe kl).map fun p => p.2, ?_, ?_, ?_⟩
  · simp only [generate_comprehensive_pip_table]
    rw [hkl]
  · rw [← hmap]
    exact (pySort_perm compKeyLe kl).map _
  · rw [List.pairwise_map]
    refine (pySort_pairwise compKeyLe compKeyLe_trans compKeyLe_total kl).imp_of_mem ?_
    intro p q hp hq hle
    rw [hmem p (pySort_mem.mp hp), hmem q (pySort_mem.mp hq)]
    simp only [Option.getD_some]
    simpa [compKeyLe, Bool.not_eq_true'] using hle

/-- Witness for C6 on a concrete two-result input. -/
theorem generate_comprehensive_pip_table_sorted_witness :
    (∀ r ∈ ([{ wheel_info := { filename := "A.whl", url := "u", size := 1,
                               python_version := "3.9", platform_tag := "m" },
               cuda_architectures := ["sm_80"], package_version := "2.7.1" },
             { wheel_info := { filename := "B.whl", url := "u", size := 1,
                               python_version := "3.10", platform_tag := "m" },
               cuda_architectures := [], package_version := "2.8.0" }] :
        List AnalysisResult), (sort_key r).isSome) ∧
    ∃ sorted_results : List AnalysisResult,
      generate_comprehensive_pip_table
        [{ wheel_info := { filename := "A.whl", url := "u", size := 1,
                           python_version := "3.9", platform_tag := "m" },
           cuda_architectures := ["sm_80"], package_version := "2.7.1" },
         { wheel_info := { filename := "B.whl", url := "u", size := 1,
                           python_version := "3.10", platform_tag := "m" },
           cuda_architectures := [], package_version := "2.8.0" }] =
        some (pyJoin "\n" ("| package | architectures |" :: "|---------|---------------|" ::
          sorted_results.map renderRow)) ∧
      List.Perm sorted_results
        [{ wheel_info := { filename := "A.whl", url := "u", size := 1,
                           python_version := "3.9", platform_tag := "m" },
           cuda_architectures := ["sm_80"], package_version := "2.7.1" },
         { wheel_info := { filename := "B.whl", url := "u", size := 1,
                           python_version := "3.10", platform_tag := "m" },
           cuda_architectures := [], package_version := "2.8.0" }] ∧
      sorted_results.Pairwise (fun r₁ r₂ =>
        compKeyLt ((sort_key r₂).getD ([], [])) ((sort_key r₁).getD ([], [])) = false) :=
  ⟨by decide,
   generate_comprehensive_pip_table_sorted
     [{ wheel_info := { filename := "A.whl", url := "u", size := 1,
                        python_version := "3.9", platform_tag := "m" },
        cuda_architectures := ["sm_80"], package_version := "2.7.1" },
      { wheel_info := { filename := "B.whl", url := "u", size := 1,
                        python_version := "3.10", platform_tag := "m" },
        cuda_architectures := [], package_version := "2.8.0" }] (by decide)⟩

/-! ## Split / join round-trip lemmas -/

theorem splitOnCharL_cons (sep c : Char) (rest : List Char) :
    splitOnCharL sep (c :: rest) =
      if c = sep then [] :: splitOnCharL sep rest
      else match splitOnCharL sep rest with
           | t :: ts => (c :: t) :: ts
           | [] => [[c]] := rfl

theorem splitCommaSpace_cons2 (c d : Char) (rest : List Char) :
    splitCommaSpace (c :: d :: rest) =
      if c = ',' ∧ d = ' ' then [] :: splitCommaSpace rest
      else match splitCommaSpace (d :: rest) with
           | t :: ts => (c :: t) :: ts
           | [] => [[c]] := rfl

theorem splitOnCharL_of_not_mem (sep : Char) :
    ∀ (a : List Char), sep ∉ a → splitOnCharL sep a = [a]
  | [], _ => rfl
  | c :: rest, h => by
    have hc : ¬(c = sep) := fun hcc => h (by simp [hcc])
    have ih := splitOnCharL_of_not_mem sep rest fun hm => h (List.mem_cons_of_mem c hm)
    rw [splitOnCharL_cons, if_neg hc, ih]

theorem splitOnCharL_append (sep : Char) :
    ∀ (a rest : List Char), sep ∉ a →
      splitOnCharL sep (a ++ sep :: rest) = a :: splitOnCharL sep rest
  | [], rest, _ => by
    rw [List.nil_append, splitOnCharL_cons, if_pos rfl]
  | c :: a', rest, h => by
    have hc : ¬(c = sep) := fun hcc => h (by simp [hcc])
    have ih := splitOnCharL_append sep a' rest fun hm => h (List.mem_cons_of_mem c hm)
    show splitOnCharL sep (c :: (a' ++ sep :: rest)) = (c :: a') :: splitOnCharL sep rest
    rw [splitOnCharL_cons, if_neg hc, ih]

theorem splitOnCharL_joinWith (sep : Char) :
    ∀ (lines : List (List Char)), lines ≠ [] → (∀ l ∈ lines, sep ∉ l) →
      splitOnCharL sep (joinWith [sep] lines) = lines
  | [], h, _ => absurd rfl h
  | [x], _, hall => by
    simp only [joinWith]
    exact splitOnCharL_of_not_mem sep x (hall x (by simp))
  | x :: y :: rest, _, hall => by
    simp only [joinWith]
    have harr : x ++ [sep] ++ joinWith [sep] (y :: rest) =
        x ++ sep :: joinWith [sep] (y :: rest) := by simp
    rw [harr, splitOnCharL_append sep x _ (hall x (by simp))]
    rw [splitOnCharL_joinWith sep (y :: rest) (by simp) fun l hl => hall l (by simp [hl])]

theorem splitCommaSpace_no_comma :
    ∀ (t : List Char), ',' ∉ t → splitCommaSpace t = [t]
  | [], _ => rfl
  | [_], _ => rfl
  | c :: d :: rest, h => by
    have hc : ¬(c = ',') := fun hcc => h (by simp [hcc])
    have hneg : ¬(c = ',' ∧ d = ' ') := fun hand => hc hand.1
    have ih := splitCommaSpace_no_comma (d :: rest) fun hm => h (List.mem_cons_of_mem c hm)
    rw [splitCommaSpace_cons2, if_neg hneg, ih]

theorem splitCommaSpace_append :
    ∀ (t rest : List Char), ',' ∉ t →
      splitCommaSpace (t ++ ',' :: ' ' :: rest) = t :: splitCommaSpace rest
  | [], rest, _ => by
    rw [List.nil_append, splitCommaSpace_cons2, if_pos ⟨rfl, rfl⟩]
  | [c], rest, h => by
    have hc : ¬(c = ',') := fun hcc => h (by simp [hcc])
    have hneg : ¬(c = ',' ∧ (',' : Char) = ' ') := fun hand => hc hand.1
    have hinner : splitCommaSpace (',' :: ' ' :: rest) = [] :: splitCommaSpace rest := by
      rw [splitCommaSpace_cons2, if_pos ⟨rfl, rfl⟩]
    show splitCommaSpace (c :: ',' :: ' ' :: rest) = [c] :: splitCommaSpace rest
    rw [splitCommaSpace_cons2, if_neg hneg, hinner]
  | c :: c' :: t', rest, h => by
    have hc : ¬(c = ',') := fun hcc => h (by simp [hcc])
    have hneg : ¬(c = ',' ∧ c' = ' ') := fun hand => hc hand.1
    have ih := splitCommaSpace_append (c' :: t') rest fun hm => h (List.mem_cons_of_mem c hm)
    rw [show (c' :: t') ++ ',' :: ' ' :: rest = c' :: (t' ++ ',' :: ' ' :: rest) from rfl]
      at ih
    show splitCommaSpace (c :: c' :: (t' ++ ',' :: ' ' :: rest)) =
      (c :: c' :: t') :: splitCommaSpace rest
    rw [splitCommaSpace_cons2, if_neg hneg, ih]

theorem splitCommaSpace_joinWith :
    ∀ (tokens : List (List Char)), tokens ≠ [] → (∀ x ∈ tokens, ',' ∉ x) →
      splitCommaSpace (joinWith [',', ' '] tokens) = tokens
  | [], h, _ => absurd rfl h
  | [x], _, hall => by
    simp only [joinWith]
    exact splitCommaSpace_no_comma x (hall x (by simp))
  | x :: y :: rest, _, hall => by
    simp only [joinWith]
    have harr : x ++ [',', ' '] ++ joinWith [',', ' '] (y :: rest) =
        x ++ ',' :: ' ' :: joinWith [',', ' '] (y :: rest) := by simp
    rw [harr, splitCommaSpace_append x _ (hall x (by simp))]
    rw [splitCommaSpace_joinWith (y :: rest) (by simp) fun l hl => hall l (by simp [hl])]

/-! ## Strip lemmas -/

theorem dropWhile_eq_self_of_length {p : α → Bool} {l : List α}
    (h : (l.dropWhile p).length = l.length) : l.dropWhile p = l :=
  (List.dropWhile_sublist p).eq_of_length h

theorem stripData_self_parts {l : List Char} (h : stripData l = l) :
    l.dropWhile pyIsSpace = l ∧ l.reverse.dropWhile pyIsSpace = l.reverse := by
  have hlen := congrArg List.length h
  simp only [stripData, List.length_reverse] at hlen
  have h1 : (l.dropWhile pyIsSpace).length ≤ l.length :=
    (List.dropWhile_sublist pyIsSpace).length_le
  have h2 : ((l.dropWhile pyIsSpace).reverse.dropWhile pyIsSpace).length ≤
      (l.dropWhile pyIsSpace).reverse.length :=
    (List.dropWhile_sublist pyIsSpace).length_le
  rw [List.length_reverse] at h2
  have e1 : (l.dropWhile pyIsSpace).length = l.length := by omega
  have hdw := dropWhile_eq_self_of_length e1
  refine ⟨hdw, ?_⟩
  apply dropWhile_eq_self_of_length
  rw [hdw] at hlen
  rw [List.length_reverse]
  exact hlen

theorem dropWhile_cons_self {p : α → Bool} {c : α} {t : List α}
    (h : (c :: t).dropWhile p = c :: t) : p c = false := by
  cases hp : p c with
  | false => rfl
  | true =>
    rw [List.dropWhile_cons_of_pos hp] at h
    have hlen := congrArg List.length h
    have hle : (t.dropWhile p).length ≤ t.length := (List.dropWhile_sublist p).length_le
    simp at hlen
    omega

theorem stripData_wrap {l : List Char} (h : stripData l = l) :
    stripData (' ' :: (l ++ [' '])) = l := by
  obtain ⟨hdw, hdwr⟩ := stripData_self_parts h
  simp only [stripData]
  rw [List.dropWhile_cons_of_pos (by decide : pyIsSpace ' ' = true)]
  cases l with
  | nil => decide
  | cons c t =>
    have hc : pyIsSpace c = false := dropWhile_cons_self hdw
    rw [show (c :: t) ++ [' '] = c :: (t ++ [' ']) from rfl]
    rw [List.dropWhile_cons_of_neg (by simp [hc])]
    rw [show (c :: (t ++ [' '])) = (c :: t) ++ [' '] from rfl]
    rw [List.reverse_append]
    rw [show ([' '] : List Char).reverse ++ (c :: t).reverse = ' ' :: (c :: t).reverse from
      by simp]
    rw [List.dropWhile_cons_of_pos (by decide : pyIsSpace ' ' = true)]
    rw [hdwr]
    exact List.reverse_reverse _

theorem stripData_id_of_ends (l : List Char)
    (hh : ∀ c t, l = c :: t → pyIsSpace c = false)
    (hl : ∀ c t, l.reverse = c :: t → pyIsSpace c = false) :
    stripData l = l := by
  cases l with
  | nil => rfl
  | cons c t =>
    have hc := hh c t rfl
    simp only [stripData]
    rw [List.dropWhile_cons_of_neg (by simp [hc])]
    cases hrev : (c :: t).reverse with
    | nil => exact absurd hrev (by simp)
    | cons d u =>
      have hd := hl d u hrev
      rw [List.dropWhile_cons_of_neg (by simp [hd]), ← hrev, List.reverse_reverse]

/-! ## Head and last of a joined token list -/

theorem joinWith_head_pred {sep : List Char} {P : Char → Bool} :
    ∀ (xss : List (List Char)), xss ≠ [] → (∀ x ∈ xss, x ≠ [] ∧ x.all P = true) →
      ∃ c t, joinWith sep xss = c :: t ∧ P c = true
  | [], h, _ => absurd rfl h
  | [x], _, hall => by
    obtain ⟨hne, hP⟩ := hall x (by simp)
    cases x with
    | nil => exact absurd rfl hne
    | cons c t =>
      rw [List.all_eq_true] at hP
      exact ⟨c, t, by simp [joinWith], hP c (by simp)⟩
  | x :: y :: rest, _, hall => by
    obtain ⟨hne, hP⟩ := hall x (by simp)
    cases x with
    | nil => exact absurd rfl hne
    | cons c t =>
      rw [List.all_eq_true] at hP
      exact ⟨c, t ++ sep ++ joinWith sep (y :: rest), by simp [joinWith], hP c (by simp)⟩

theorem joinWith_revhead_pred {sep : List Char} {P : Char → Bool} :
    ∀ (xss : List (List Char)), xss ≠ [] → (∀ x ∈ xss, x ≠ [] ∧ x.all P = true) →
      ∃ c t, (joinWith sep xss).reverse = c :: t ∧ P c = true
  | [], h, _ => absurd rfl h
  | [x], _, hall => by
    obtain ⟨hne, hP⟩ := hall x (by simp)
    cases hrev : x.reverse with
    | nil => exact absurd (by simpa using hrev) hne
    | cons c t =>
      rw [List.all_eq_true] at hP
      have hcx : c ∈ x := by
        rw [← List.mem_reverse, hrev]
        simp
      exact ⟨c, t, by simp only [joinWith]; exact hrev, hP c hcx⟩
  | x :: y :: rest, _, hall => by
    obtain ⟨c, t, hrev, hPc⟩ := joinWith_revhead_pred (y :: rest) (by simp)
      fun l hl => hall l (by simp [hl])
    refine ⟨c, t ++ (x ++ sep).reverse, ?_, hPc⟩
    simp only [joinWith]
    rw [show x ++ sep ++ joinWith sep (y :: rest) = (x ++ sep) ++ joinWith sep (y :: rest)
      from rfl]
    rw [List.reverse_append, hrev]
    simp

/-! ## Well-formedness for the table round trip -/

/-- Characters that may appear in an architecture token without disturbing
the round trip: no comma, no pipe, no whitespace (newline included). -/
def cleanTokenChar (c : Char) : Bool :=
  !(c = ',' || c = '|' || pyIsSpace c)

/-- A token participating in the round trip: nonempty and made of clean
characters.  Every `sm_` architecture token satisfies this. -/
def cleanToken (s : String) : Bool :=
  !(s.data.isEmpty) && s.data.all cleanTokenChar

/-- Well-formedness of one analysis result for the round trip: the filename
contains no pipe and no newline and carries no surrounding whitespace, and
every architecture entry is a clean token. -/
def wellFormedResult (r : AnalysisResult) : Prop :=
  '|' ∉ r.wheel_info.filename.data ∧ '\n' ∉ r.wheel_info.filename.data ∧
  pyStrip r.wheel_info.filename = r.wheel_info.filename ∧
  ∀ a ∈ r.cuda_architectures, cleanToken a = true

instance (r : AnalysisResult) : Decidable (wellFormedResult r) := by
  unfold wellFormedResult
  infer_instance

theorem cleanToken_parts {a : String} (h : cleanToken a = true) :
    a.data ≠ [] ∧ a.data.all cleanTokenChar = true := by
  simp only [cleanToken, Bool.and_eq_true, Bool.not_eq_true'] at h
  constructor
  · intro he
    rw [he] at h
    exact absurd h.1 (by simp)
  · exact h.2

theorem cleanTokenChar_parts {c : Char} (h : cleanTokenChar c = true) :
    ¬(c = ',') ∧ ¬(c = '|') ∧ pyIsSpace c = false := by
  simp only [cleanTokenChar, Bool.or_eq_true, Bool.not_eq_true', Bool.or_eq_false_iff,
    decide_eq_false_iff_not] at h
  exact ⟨h.1.1, h.1.2, h.2⟩

theorem joinWith_subset {sep : List Char} :
    ∀ {xss : List (List Char)} {c : Char},
      c ∈ joinWith sep xss → c ∈ sep ∨ ∃ x ∈ xss, c ∈ x
  | [], c, h => by simp [joinWith] at h
  | [x], c, h => Or.inr ⟨x, by simp, by simpa [joinWith] using h⟩
  | x :: y :: rest, c, h => by
    simp only [joinWith, List.append_assoc, List.mem_append] at h
    rcases h with h | h | h
    · exact Or.inr ⟨x, by simp, h⟩
    · exact Or.inl h
    · rcases joinWith_subset h with h' | ⟨x', hx', hc⟩
      · exact Or.inl h'
      · exact Or.inr ⟨x', by simp [hx'], hc⟩

/-- Character facts about the rendered architecture cell of a well-formed
result. -/
theorem archStr_facts {r : AnalysisResult}
    (harchs : ∀ a ∈ r.cuda_architectures, cleanToken a = true) :
    '|' ∉ (archStr r).data ∧ '\n' ∉ (archStr r).data ∧
    stripData (archStr r).data = (archStr r).data := by
  by_cases hne : r.cuda_architectures = []
  · simp [archStr, hne]
    decide
  · have hjoin : (archStr r).data =
        joinWith [',', ' '] (r.cuda_architectures.map String.data) := by
      simp [archStr, hne, pyJoin]
    have htoks : ∀ x ∈ r.cuda_architectures.map String.data,
        x ≠ [] ∧ x.all cleanTokenChar = true := by
      intro x hx
      obtain ⟨a, ha, rfl⟩ := List.mem_map.mp hx
      exact cleanToken_parts (harchs a ha)
    have hnotc : ∀ (ch : Char), cleanTokenChar ch = false →
        ch ∉ (archStr r).data ∨ ch ∈ ([',', ' '] : List Char) := by
      intro ch hch
      by_cases hm : ch ∈ (archStr r).data
      · rw [hjoin] at hm
        rcases joinWith_subset hm with hsep | ⟨x, hx, hcx⟩
        · exact Or.inr hsep
        · have := (htoks x hx).2
          rw [List.all_eq_true] at this
          rw [this ch hcx] at hch
          exact absurd hch (by simp)
      · exact Or.inl hm
    refine ⟨?_, ?_, ?_⟩
    · rcases hnotc '|' (by decide) with h' | h'
      · exact h'
      · exact absurd h' (by decide)
    · rcases hnotc '\n' (by decide) with h' | h'
      · exact h'
      · exact absurd h' (by decide)
    · rw [hjoin]
      have hmapne : r.cuda_architectures.map String.data ≠ [] := by
        simp [hne]
      obtain ⟨c₁, t₁, hhead, hP₁⟩ :=
        joinWith_head_pred (r.cuda_architectures.map String.data) hmapne htoks
      obtain ⟨c₂, t₂, hrev, hP₂⟩ :=
        joinWith_revhead_pred (r.cuda_architectures.map String.data) hmapne htoks
      apply stripData_id_of_ends
      · intro c t hct
        rw [hct] at hhead
        injection hhead with h₁ _
        rw [h₁]
        exact (cleanTokenChar_parts hP₁).2.2
      · intro c t hct
        rw [hct] at hrev
        injection hrev with h₁ _
        rw [h₁]
        exact (cleanTokenChar_parts hP₂).2.2

theorem map_mk_data (xs : List String) : (xs.map String.data).map String.mk = xs := by
  rw [List.map_map]
  have hid : (String.mk ∘ String.data) = id := funext fun s => rfl
  rw [hid, List.map_id]

/-- Re-parsing one rendered data row of a well-formed result recovers its
(filename, architecture list) pair. -/
theorem specParseRow_renderRow {r : AnalysisResult} (hw : wellFormedResult r) :
    specParseRow (renderRow r) = some (r.wheel_info.filename, r.cuda_architectures) := by
  obtain ⟨hpipe, hnl, hstrip, harchs⟩ := hw
  obtain ⟨hapipe, hanl, hastrip⟩ := archStr_facts harchs
  have hform : (renderRow r).data =
      '|' :: ((' ' :: (r.wheel_info.filename.data ++ [' '])) ++
        '|' :: ((' ' :: ((archStr r).data ++ [' '])) ++ '|' :: [])) := by
    simp [renderRow, String.data_append]
  have hcell₁ : '|' ∉ ' ' :: (r.wheel_info.filename.data ++ [' ']) := by
    simp only [List.mem_cons, List.mem_append]
    rintro (h' | h' | h')
    · exact absurd h' (by decide)
    · exact hpipe h'
    · simp at h'
  have hcell₂ : '|' ∉ ' ' :: ((archStr r).data ++ [' ']) := by
    simp only [List.mem_cons, List.mem_append]
    rintro (h' | h' | h')
    · exact absurd h' (by decide)
    · exact hapipe h'
    · simp at h'
  have hsplit : splitOnCharL '|' (renderRow r).data =
      [[], ' ' :: (r.wheel_info.filename.data ++ [' ']),
       ' ' :: ((archStr r).data ++ [' ']), []] := by
    rw [hform, splitOnCharL_cons, if_pos rfl,
      splitOnCharL_append '|' _ _ hcell₁, splitOnCharL_append '|' _ _ hcell₂]
    rfl
  have hstrip₁ : stripData (' ' :: (r.wheel_info.filename.data ++ [' '])) =
      r.wheel_info.filename.data :=
    stripData_wrap (congrArg String.data hstrip)
  have hstrip₂ : stripData (' ' :: ((archStr r).data ++ [' '])) = (archStr r).data :=
    stripData_wrap hastrip
  have hrr : specParseRow (renderRow r) =
      some (pyStrip ⟨' ' :: (r.wheel_info.filename.data ++ [' '])⟩,
        specParseArchCell (pyStrip ⟨' ' :: ((archStr r).data ++ [' '])⟩)) := by
    simp [specParseRow, hsplit]
  rw [hrr]
  have hfn : (pyStrip ⟨' ' :: (r.wheel_info.filename.data ++ [' '])⟩) =
      r.wheel_info.filename := by
    have he : pyStrip ⟨' ' :: (r.wheel_info.filename.data ++ [' '])⟩ =
        ⟨stripData (' ' :: (r.wheel_info.filename.data ++ [' ']))⟩ := rfl
    rw [he, hstrip₁]
  have hcells : (pyStrip ⟨' ' :: ((archStr r).data ++ [' '])⟩) = archStr r := by
    have he : pyStrip ⟨' ' :: ((archStr r).data ++ [' '])⟩ =
        ⟨stripData (' ' :: ((archStr r).data ++ [' ']))⟩ := rfl
    rw [he, hstrip₂]
  rw [hfn, hcells]
  by_cases hne : r.cuda_architectures = []
  · have ha : archStr r = "" := by simp [archStr, hne]
    rw [ha, hne]
    rfl
  · have hjoin : (archStr r).data =
        joinWith [',', ' '] (r.cuda_architectures.map String.data) := by
      simp [archStr, hne, pyJoin]
    have hmapne : r.cuda_architectures.map String.data ≠ [] := by simp [hne]
    have htoks : ∀ x ∈ r.cuda_architectures.map String.data,
        x ≠ [] ∧ x.all cleanTokenChar = true := by
      intro x hx
      obtain ⟨a, ha, rfl⟩ := List.mem_map.mp hx
      exact cleanToken_parts (harchs a ha)
    have hanem : (archStr r).data ≠ [] := by
      obtain ⟨c₁, t₁, hhead, _⟩ := joinWith_head_pred
        (r.cuda_architectures.map String.data) hmapne htoks
      rw [hjoin, hhead]
      simp
    have hcellne : ¬(archStr r = "") := by
      intro he
      exact hanem (congrArg String.data he)
    simp only [specParseArchCell, if_neg hcellne]
    rw [hjoin, splitCommaSpace_joinWith (r.cuda_architectures.map String.data) hmapne ?_]
    · rw [map_mk_data]
    · intro x hx hcm
      have := (htoks x hx).2
      rw [List.all_eq_true] at this
      have := cleanTokenChar_parts (this ',' hcm)
      exact this.1 rfl

/-- A well-formed result's rendered row contains no newline. -/
theorem renderRow_no_newline {r : AnalysisResult} (hw : wellFormedResult r) :
    '\n' ∉ (renderRow r).data := by
  obtain ⟨hpipe, hnl, hstrip, harchs⟩ := hw
  obtain ⟨hapipe, hanl, hastrip⟩ := archStr_facts harchs
  have hform : (renderRow r).data =
      '|' :: ((' ' :: (r.wheel_info.filename.data ++ [' '])) ++
        '|' :: ((' ' :: ((archStr r).data ++ [' '])) ++ '|' :: [])) := by
    simp [renderRow, String.data_append]
  rw [hform]
  simp only [List.mem_cons, List.mem_append]
  rintro (h' | (h' | h' | h') | h' | (h' | h' | h') | h')
  · exact absurd h' (by decide)
  · exact absurd h' (by decide)
  · exact hnl h'
  · simp at h'
  · exact absurd h' (by decide)
  · exact absurd h' (by decide)
  · exact hanl h'
  · simp at h'
  · simp at h'

/-! ## Claim C9 -/

/-- C9: rendering the markdown table (header row, separator row, one
pipe-delimited data row per result) from well-formed analysis results and
re-parsing each data row's two cells recovers exactly the (filename,
architecture-list) pairs of the input results, in order; the architectures
cell is the comma-joined list، or the empty string when the list is empty. -/
theorem generate_pip_table_round_trip (package version : String)
    (results : List AnalysisResult) (h : ∀ r ∈ results, wellFormedResult r) :
    specParseTable (generate_pip_table package version results) =
      some (results.map fun r => (r.wheel_info.filename, r.cuda_architectures)) := by
  have htdata : (generate_pip_table package version results).data =
      joinWith ['\n'] (("| package | architectures |" : String).data ::
        ("|---------|---------------|" : String).data ::
        (results.map renderRow).map String.data) := by
    simp [generate_pip_table, pyJoin]
  have hnonl : ∀ l ∈ ("| package | architectures |" : String).data ::
      ("|---------|---------------|" : String).data ::
      (results.map renderRow).map String.data, '\n' ∉ l := by
    intro l hl
    rcases List.mem_cons.mp hl with rfl | hl'
    · decide
    · rcases List.mem_cons.mp hl' with rfl | hl''
      · decide
      · obtain ⟨row, hrow, rfl⟩ := List.mem_map.mp hl''
        obtain ⟨r, hr, rfl⟩ := List.mem_map.mp hrow
        exact renderRow_no_newline (h r hr)
  simp only [specParseTable]
  rw [htdata, splitOnCharL_joinWith '\n' _ (by simp) hnonl]
  show ((List.map String.data (results.map renderRow)).map String.mk).mapM specParseRow =
    some (results.map fun r => (r.wheel_info.filename, r.cuda_architectures))
  rw [map_mk_data]
  clear htdata hnonl
  revert h
  induction results with
  | nil => intro _; rfl
  | cons r t ih =>
    intro h
    rw [List.map_cons, List.mapM_cons, specParseRow_renderRow (h r (by simp)),
      ih fun x hx => h x (by simp [hx])]
    rfl

/-- Witness for C9 on a concrete two-result list, one with an empty
architecture set. -/
theorem generate_pip_table_round_trip_witness :
    (∀ r ∈ ([{ wheel_info := { filename := "torch-2.8.0-cp313-cp313-manylinux_2_28_x86_64.whl",
                               url := "u", size := 1, python_version := "3.13",
                               platform_tag := "m" },
               cuda_architectures := ["sm_70", "sm_80"], package_version := "2.8.0" },
             { wheel_info := { filename := "torch-2.8.0-cp312-cp312-manylinux_2_28_x86_64.whl",
                               url := "u", size := 1, python_version := "3.12",
                               platform_tag := "m" },
               cuda_architectures := [], package_version := "2.8.0" }] :
        List AnalysisResult), wellFormedResult r) ∧
    specParseTable (generate_pip_table "torch" "2.8.0"
      [{ wheel_info := { filename := "torch-2.8.0-cp313-cp313-manylinux_2_28_x86_64.whl",
                         url := "u", size := 1, python_version := "3.13",
                         platform_tag := "m" },
         cuda_architectures := ["sm_70", "sm_80"], package_version := "2.8.0" },
       { wheel_info := { filename := "torch-2.8.0-cp312-cp312-manylinux_2_28_x86_64.whl",
                         url := "u", size := 1, python_version := "3.12",
                         platform_tag := "m" },
         cuda_architectures := [], package_version := "2.8.0" }]) =
      some [("torch-2.8.0-cp313-cp313-manylinux_2_28_x86_64.whl", ["sm_70", "sm_80"]),
            ("torch-2.8.0-cp312-cp312-manylinux_2_28_x86_64.whl", [])] :=
  ⟨by decide,
   (generate_pip_table_round_trip "torch" "2.8.0"
     [{ wheel_info := { filename := "torch-2.8.0-cp313-cp313-manylinux_2_28_x86_64.whl",
                        url := "u", size := 1, python_version := "3.13",
                        platform_tag := "m" },
        cuda_architectures := ["sm_70", "sm_80"], package_version := "2.8.0" },
      { wheel_info := { filename := "torch-2.8.0-cp312-cp312-manylinux_2_28_x86_64.whl",
                        url := "u", size := 1, python_version := "3.12",
                        platform_tag := "m" },
        cuda_architectures := [], package_version := "2.8.0" }] (by decide)).trans rfl⟩

end PipCaps
